import Mathlib

/-!
# Verification of the il Dolomiti RSS-to-Telegram bridge (`main.py`)

This file gives a shallow embedding, in Lean 4, of the parts of `main.py`
that the specification's claims are about:

* the title diff engine (`get_diff`, `get_diff_removals`), including a
  faithful model of the Python standard library's `difflib.ndiff`
  (`SequenceMatcher` + `Differ`) specialized to character sequences, since
  `get_diff_removals` calls `ndiff` on the two title strings;
* the change detector / reconciler (`check`, `first_run`,
  `process_new_article`), with network effects (feed fetch, detail-page
  fetch, Telegram send/edit) supplied as explicit oracle inputs and the
  performed calls recorded as an action trace;
* the message publisher (`send_message`, `telegram_escape`, `send_log`).

Strings are modelled as `List Char` in the diff engine (Python strings are
character sequences there) and as `String` in the reconciler.  Machine-level
concerns (sqlite storage, sockets, scheduling) are modelled by explicit
state passing: the Article table is a `List Article` kept in insertion
order, fallible HTTP calls are `Except`/oracle values, and a Python
exception escaping `process_new_article` is an explicit `Option PyExc`
in the step result (the store rows survive, as the sqlite rows do).
-/

set_option maxRecDepth 200000

namespace IlDolomiti

/-! ## difflib model: data and small helpers

`difflib.ndiff(a, b)` yields lines `"- x"`, `"+ x"`, `"  x"` where `x` is a
single character of `a` or `b` (the "lines" being diffed are the characters
of the two title strings).  We model an output line as its tag together
with that character.  The `"? "` hint lines of `Differ` are only produced
by the similar-pair branch of `_fancy_replace`, which requires two unequal
lines with similarity ratio above 0.74; two unequal single-character lines
always have ratio 0, so that branch is unreachable here and the model has
no `'?'` tag (see `fancyReplace` below). -/

structure DLine where
  tag : Char
  ch : Char
deriving DecidableEq, Repr

/-- `Differ._dump(tag, x, lo, hi)`: yield `tag + x[i]` for `i` in `[lo, hi)`. -/
def dump (tag : Char) (x : List Char) (lo hi : Nat) : List DLine :=
  ((x.drop lo).take (hi - lo)).map (fun c => ⟨tag, c⟩)

/-- Python slice `x[lo:hi]` for indices already known to be in `[0, len x]`. -/
def slice (x : List Char) (lo hi : Nat) : List Char :=
  (x.drop lo).take (hi - lo)

/-- Lookup in an association list used for `j2len` (a Python dict with `Nat`
keys), with default: `d.get(k, 0)`. -/
def lookupD (m : List (Nat × Nat)) (k : Nat) : Nat :=
  match m.find? (fun e => e.1 == k) with
  | some e => e.2
  | none => 0

/-- `b2j` lookup: `b2j.get(c, [])`. -/
def assocGet (m : List (Char × List Nat)) (c : Char) : List Nat :=
  match m.find? (fun e => e.1 == c) with
  | some e => e.2
  | none => []

/-- Add one occurrence index to `b2j` (`b2j.setdefault(elt, []).append(i)`);
index lists stay in increasing order because indices are added in order. -/
def b2jAdd (m : List (Char × List Nat)) (c : Char) (j : Nat) : List (Char × List Nat) :=
  match m with
  | [] => [(c, [j])]
  | e :: rest => if e.1 == c then (e.1, e.2 ++ [j]) :: rest else e :: b2jAdd rest c j

/-- `SequenceMatcher.__chain_b` for `isjunk = None` (which is what
`ndiff`'s top-level matcher uses): build the index map of `b`, then purge
"popular" elements when `len(b) >= 200` (autojunk).  The junk set `bjunk`
is empty, so the junk-extension loops of `find_longest_match` are no-ops
and are omitted there. -/
def b2jBuild (b : List Char) : List (Char × List Nat) :=
  let m := (b.enum.foldl (fun m p => b2jAdd m p.2 p.1) [])
  if 200 ≤ b.length then
    m.filter (fun e => ¬ (b.length / 100 + 1 < e.2.length))
  else m

/-! ## `SequenceMatcher.find_longest_match` -/

structure FLM where
  besti : Nat
  bestj : Nat
  bestsize : Nat
deriving DecidableEq, Repr

/-- The inner loop of `find_longest_match`: for each `j` in `b2j[a[i]]`
(an ascending list), skip `j < blo` (`continue`), stop at `j >= bhi`
(`break`), otherwise set `newj2len[j] = j2len.get(j-1, 0) + 1` and update
the best block when the run length grows. -/
def flmInner (blo bhi i : Nat) (j2len : List (Nat × Nat)) :
    List Nat → List (Nat × Nat) → FLM → List (Nat × Nat) × FLM
  | [], newj2len, best => (newj2len, best)
  | j :: js, newj2len, best =>
    if j < blo then flmInner blo bhi i j2len js newj2len best
    else if bhi ≤ j then (newj2len, best)
    else
      -- `j2len.get(j - 1, 0)`: for `j = 0` the Python key is `-1`, which is
      -- never present, so the default 0 applies.
      let k := (if j = 0 then 0 else lookupD j2len (j - 1)) + 1
      let best :=
        if best.bestsize < k then ⟨i + 1 - k, j + 1 - k, k⟩ else best
      flmInner blo bhi i j2len js ((j, k) :: newj2len) best

/-- The outer loop of `find_longest_match` over `i` in `range(alo, ahi)`,
threading `j2len` and the current best. -/
def flmOuter (bm : List (Char × List Nat)) (a : List Char) (blo bhi : Nat) :
    List Nat → List (Nat × Nat) → FLM → FLM
  | [], _, best => best
  | i :: is, j2len, best =>
    let r := flmInner blo bhi i j2len (assocGet bm (a.getD i ' ')) [] best
    flmOuter bm a blo bhi is r.1 r.2

/-- The first extension loop: extend the best block at the front while the
preceding characters match.  `fuel` starts at `besti`, which bounds the
number of iterations, so the recursion is structural and the behaviour is
exactly the Python `while` loop's. -/
def extendFront (a b : List Char) (alo blo : Nat) :
    Nat → Nat → Nat → Nat → FLM
  | 0, besti, bestj, bestsize => ⟨besti, bestj, bestsize⟩
  | fuel + 1, besti, bestj, bestsize =>
    if alo < besti ∧ blo < bestj ∧ a.get? (besti - 1) = b.get? (bestj - 1) then
      extendFront a b alo blo fuel (besti - 1) (bestj - 1) (bestsize + 1)
    else ⟨besti, bestj, bestsize⟩

/-- The second extension loop: extend at the back while the following
characters match.  `fuel` starts at `ahi`, which bounds the iterations. -/
def extendBack (a b : List Char) (ahi bhi : Nat) :
    Nat → Nat → Nat → Nat → Nat
  | 0, _, _, bestsize => bestsize
  | fuel + 1, besti, bestj, bestsize =>
    if besti + bestsize < ahi ∧ bestj + bestsize < bhi ∧
        a.get? (besti + bestsize) = b.get? (bestj + bestsize) then
      extendBack a b ahi bhi fuel besti bestj (bestsize + 1)
    else bestsize

/-- `find_longest_match(alo, ahi, blo, bhi)` with `isjunk = None`: the
`j2len` dynamic-programming loop, then the two non-junk extension loops.
The two junk extension loops are omitted: `bjunk` is empty when
`isjunk = None`, so they never iterate. -/
def findLongestMatch (a b : List Char) (bm : List (Char × List Nat))
    (alo ahi blo bhi : Nat) : FLM :=
  let best := flmOuter bm a blo bhi (List.range' alo (ahi - alo)) [] ⟨alo, blo, 0⟩
  let f := extendFront a b alo blo best.besti best.besti best.bestj best.bestsize
  let sz := extendBack a b ahi bhi ahi f.besti f.bestj f.bestsize
  ⟨f.besti, f.bestj, sz⟩

/-! ## `SequenceMatcher.get_matching_blocks` -/

/-- The region-splitting recursion of `get_matching_blocks`.  CPython keeps
an explicit LIFO queue and sorts the collected blocks at the end; since the
two subregions are disjoint and ordered, emitting left blocks, then the
found block, then right blocks produces exactly that sorted list.  `fuel`
bounds the recursion depth; the top-level call passes more fuel than the
recursion can consume, so the cutoff branch is never taken there. -/
def mbAux (a b : List Char) (bm : List (Char × List Nat)) :
    Nat → Nat → Nat → Nat → Nat → List (Nat × Nat × Nat)
  | 0, _, _, _, _ => []
  | fuel + 1, alo, ahi, blo, bhi =>
    let f := findLongestMatch a b bm alo ahi blo bhi
    if f.bestsize = 0 then []
    else
      (if alo < f.besti ∧ blo < f.bestj then mbAux a b bm fuel alo f.besti blo f.bestj
       else [])
      ++ [(f.besti, f.bestj, f.bestsize)]
      ++ (if f.besti + f.bestsize < ahi ∧ f.bestj + f.bestsize < bhi then
            mbAux a b bm fuel (f.besti + f.bestsize) ahi (f.bestj + f.bestsize) bhi
          else [])

/-- Collapse adjacent equal blocks, as in `get_matching_blocks` (state
`(i1, j1, k1)` starts at `(0, 0, 0)`; a block is emitted only when `k1 ≠ 0`). -/
def mergeAdjacent : List (Nat × Nat × Nat) → Nat → Nat → Nat → List (Nat × Nat × Nat)
  | [], i1, j1, k1 => if k1 ≠ 0 then [(i1, j1, k1)] else []
  | (i2, j2, k2) :: rest, i1, j1, k1 =>
    if i1 + k1 = i2 ∧ j1 + k1 = j2 then mergeAdjacent rest i1 j1 (k1 + k2)
    else (if k1 ≠ 0 then [(i1, j1, k1)] else []) ++ mergeAdjacent rest i2 j2 k2

/-- `get_matching_blocks()`: the collected blocks, adjacency-collapsed, plus
the `(len(a), len(b), 0)` terminator. -/
def matchingBlocks (a b : List Char) : List (Nat × Nat × Nat) :=
  let blocks := mbAux a b (b2jBuild b) (a.length + b.length + 1) 0 a.length 0 b.length
  mergeAdjacent blocks 0 0 0 ++ [(a.length, b.length, 0)]

/-! ## `Differ` (character sequences) -/

/-- `Differ._plain_replace`: dump the shorter block first. -/
def plainReplace (a b : List Char) (alo ahi blo bhi : Nat) : List DLine :=
  if bhi - blo < ahi - alo then dump '+' b blo bhi ++ dump '-' a alo ahi
  else dump '-' a alo ahi ++ dump '+' b blo bhi

/-- The synch-pair search of `_fancy_replace` specialized to
single-character lines.  Two unequal single characters always have
similarity ratio 0 (`quick_ratio` counts matching elements), so no
non-identical pair ever beats the 0.74 threshold; the loop's only effect is
to record `(eqi, eqj)`: the identical pair with the smallest `j`, and for
that `j` the smallest `i`. -/
def findEqPair (a b : List Char) (alo ahi blo bhi : Nat) : Option (Nat × Nat) :=
  (List.range' blo (bhi - blo)).findSome? (fun j =>
    ((List.range' alo (ahi - alo)).find? (fun i => a.get? i == b.get? j)).map
      (fun i => (i, j)))

/-- `Differ._fancy_replace` for single-character lines: with no similar
pair possible (see `findEqPair`), either no identical pair exists and the
block degenerates to `_plain_replace`, or the first identical pair becomes
the synch point: recurse on the region before it, emit the pair as an
unchanged line, recurse on the region after it.  `_fancy_helper`, which
dispatches a recursive region to `_fancy_replace` / a one-sided region to
`_dump`, is inlined at its two call sites so that the recursion is
structural on `fuel` (a kernel-reducible single recursion rather than a
mutual one); on fuel exhaustion we fall back to `_plain_replace` (the
top-level call passes enough fuel that this never happens). -/
def fancyReplace (a b : List Char) : Nat → Nat → Nat → Nat → Nat → List DLine
  | 0, alo, ahi, blo, bhi => plainReplace a b alo ahi blo bhi
  | fuel + 1, alo, ahi, blo, bhi =>
    match findEqPair a b alo ahi blo bhi with
    | none => plainReplace a b alo ahi blo bhi
    | some (i, j) =>
      (if alo < i then
        if blo < j then fancyReplace a b fuel alo i blo j
        else dump '-' a alo i
       else if blo < j then dump '+' b blo j
       else [])
      ++ [⟨' ', a.getD i ' '⟩]
      ++ (if i + 1 < ahi then
            if j + 1 < bhi then fancyReplace a b fuel (i + 1) ahi (j + 1) bhi
            else dump '-' a (i + 1) ahi
          else if j + 1 < bhi then dump '+' b (j + 1) bhi
          else [])

/-- `Differ.compare` walking the opcodes derived from the matching blocks:
the state `(i, j)` starts at `(0, 0)`; before each block the pending
region is a replace / delete / insert, then the block itself is an equal
run dumped from `a`. -/
def compareBlocks (a b : List Char) (fuel : Nat) :
    Nat → Nat → List (Nat × Nat × Nat) → List DLine
  | _, _, [] => []
  | i, j, (ai, bj, k) :: rest =>
    (if i < ai ∧ j < bj then fancyReplace a b fuel i ai j bj
     else if i < ai then dump '-' a i ai
     else if j < bj then dump '+' b j bj
     else [])
    ++ dump ' ' a ai (ai + k)
    ++ compareBlocks a b fuel (ai + k) (bj + k) rest

/-- `difflib.ndiff(a, b)` on character sequences. -/
def ndiffLines (a b : List Char) : List DLine :=
  compareBlocks a b (a.length + b.length + 1) 0 0 (matchingBlocks a b)

/-! ## `get_diff_removals` and `get_diff` (`main.py` lines 291–340) -/

/-- The `enumerate(diff)` loop of `get_diff_removals`: `i` is the position
in the diff, `offset` subtracts the `'+'` lines seen so far; a `'-'` line
records `i + offset`.  Any other tag (the chain has no `else`) just
advances `i`. -/
def removalIndices : List DLine → Nat → Int → List Int
  | [], _, _ => []
  | l :: rest, i, offset =>
    if l.tag = ' ' then removalIndices rest (i + 1) offset
    else if l.tag = '+' then removalIndices rest (i + 1) (offset - 1)
    else if l.tag = '-' then ((i : Int) + offset) :: removalIndices rest (i + 1) offset
    else removalIndices rest (i + 1) offset

/-- The grouping loop of `get_diff_removals`: split `removed` into maximal
runs of consecutive indices (`removed[i] - removed[i-1] == 1` continues the
current group, anything else starts a new one; the trailing nonempty group
is flushed at the end). -/
def groupRuns : List Int → List Int → List (List Int) → List (List Int)
  | [], group, groups => if group ≠ [] then groups ++ [group] else groups
  | r :: rest, group, groups =>
    match group with
    | [] => groupRuns rest [r] groups
    | _ :: _ =>
      if r - group.getLastD 0 = 1 then groupRuns rest (group ++ [r]) groups
      else groupRuns rest [r] (groups ++ [group])

/-- `get_diff_removals(first, second)`. -/
def get_diff_removals (first second : List Char) : List (List Int) :=
  groupRuns (removalIndices (ndiffLines first second) 0 0) [] []

/-- Resolve a Python slice endpoint against a sequence of length `n`
(negative indices count from the end and clamp at 0; positive ones clamp
at `n`). -/
def pyIndex (n : Nat) (i : Int) : Nat :=
  if i < 0 then ((n : Int) + i).toNat else min i.toNat n

/-- Python slice `s[lo:hi]`. -/
def pySlice (s : List Char) (lo hi : Int) : List Char :=
  let l := pyIndex s.length lo
  let h := pyIndex s.length hi
  (s.drop l).take (h - l)

def tagOpen : List Char := '<' :: 'b' :: '>' :: '<' :: 'u' :: '>' :: []

def tagClose : List Char := '<' :: '/' :: 'u' :: '>' :: '<' :: '/' :: 'b' :: '>' :: []

/-- One iteration of the marking loop of `get_diff`:
`s = s[:start] + '<b><u>' + s[start:end] + '</u></b>' + s[end:]` with
`start = group[0] + offset`, `end = group[-1] + 1 + offset`, and
`offset += len('<u></u><b></b>')` (= 14). -/
def markGroup (s : List Char) (offset : Int) (group : List Int) : List Char × Int :=
  let start := group.headD 0 + offset
  let stop := group.getLastD 0 + 1 + offset
  (pySlice s 0 start ++ tagOpen ++ pySlice s start stop ++ tagClose
     ++ pySlice s stop (s.length : Int),
   offset + 14)

/-- The whole marking loop over the groups. -/
def applyGroups (s : List Char) (offset : Int) : List (List Int) → List Char
  | [] => s
  | g :: gs =>
    let r := markGroup s offset g
    applyGroups r.1 r.2 gs

/-- `get_diff(old, new)`: wrap the removed runs of `old` (w.r.t. `new`) and
of `new` (w.r.t. `old`) in `<b><u>…</u></b>` spans. -/
def get_diff (old new : List Char) : List (List Char) :=
  [applyGroups old 0 (get_diff_removals old new),
   applyGroups new 0 (get_diff_removals new old)]

/-! ## Stripping the markup again (the specification's round-trip reading)

The claims speak of "stripping the inserted markup spans `<b><u>` and
`</u></b>`" from the outputs; the natural formalisation removes every
occurrence of the two substrings, left to right, like Python's
`str.replace(tag, '')`. -/

/-- `replaceAllF p r fuel s` replaces non-overlapping occurrences of `p` in
`s` by `r`, scanning left to right.  `fuel ≥ s.length` makes the recursion
structural without changing the result. -/
def replaceAllF (p r : List Char) : Nat → List Char → List Char
  | 0, s => s
  | _ + 1, [] => []
  | fuel + 1, c :: rest =>
    if p ≠ [] ∧ p.isPrefixOf (c :: rest) then
      r ++ replaceAllF p r fuel ((c :: rest).drop p.length)
    else c :: replaceAllF p r fuel rest

def replaceAll (p r s : List Char) : List Char :=
  replaceAllF p r s.length s

/-- Remove every `<b><u>` and every `</u></b>` from `s`. -/
def stripTags (s : List Char) : List Char :=
  replaceAll tagClose [] (replaceAll tagOpen [] s)

/-! ## Data model (`main.py` lines 38–56)

The persisted `Article` row.  peewee's implicit auto-increment primary key
is not modelled; row identity is positional (`rows` is kept in insertion
order, which is also the default ordering `get_or_none` reads in), and an
`UPDATE` of the matched row is modelled by replacing the first matching row
in place (`updateFirstByPostId`).  `post_id` is scraped from a `node-<digits>`
element id and stored in an `IntegerField`, so it is modelled as
`Option Nat`; its Python truthiness (a non-empty digit string) is
`Option.isSome`.  `telegram_message_id` is an `IntegerField`, whose Python
truthiness is "present and nonzero". -/

structure Article where
  post_id : Option Nat
  title : String
  link : String
  published : Int
  telegram_message_id : Option Nat
deriving DecidableEq, Repr

/-- A parsed feed entry (the fields `check`/`process_new_article` use).
`published_parsed` is a `struct_time` converted with `time.mktime`; we
model the resulting epoch seconds directly as an integer. -/
structure FeedEntry where
  title : String
  link : String
  published_parsed : Int
  description : String
deriving DecidableEq, Repr

/-- The dict returned by `fetch_article_details` (lines 195–200).  The
HTML scraping itself is an external effect, so a successful fetch's parse
result is an oracle input to the reconciler. -/
structure ArticleDetails where
  post_id : Option Nat
  description : Option String
  image : Option String
  tags : List String
deriving DecidableEq, Repr

/-- The `TelegramMessage` dataclass. -/
structure TelegramMessage where
  title : String
  link : String
  tags : List String
  description : String
  image : String
deriving DecidableEq, Repr

/-- Python truthiness of an `IntegerField` value: present and nonzero. -/
def truthyNat : Option Nat → Bool
  | none => false
  | some n => n != 0

/-- Python `a or b` for an optional string `a` (an empty string is falsy). -/
def pyOrStr (a : Option String) (b : String) : String :=
  match a with
  | some s => if s = "" then b else s
  | none => b

/-! ## External effects

Every outbound HTTP call the reconciler makes is recorded as an `Action`;
its outcome is an oracle input.  `TgResult` is the outcome of the one
Telegram call `send_message` performs for an entry: `ok` is an HTTP 200
carrying the `result.message_id` of the response body, `httpError` a
non-2xx response, `netErr` a transport failure (`requests` raising a
`RequestException` before a response exists). -/

inductive TgResult where
  | ok (messageId : Nat)
  | httpError
  | netErr
deriving DecidableEq, Repr

inductive Action where
  /-- `requests.get` of the article detail page (`fetch_article_details`). -/
  | fetchDetails (link : String)
  /-- `POST /sendPhoto` with the rendered caption and the image file. -/
  | sendPhoto (caption : String) (image : String)
  /-- `POST /editMessageCaption` for `messageId` with the rendered caption. -/
  | editCaption (messageId : Nat) (caption : String)
  /-- `POST /sendMessage` to the logs channel (`send_log`'s diff-audit message). -/
  | sendLog (diffOld diffNew : List Char) (oldLink newLink : String)
      (messageId : Option Nat)
deriving DecidableEq, Repr

/-- A Python exception escaping `process_new_article`:
`TypeError` from `'-' in None` at the tag-splitting step, or a
`RequestException` propagating out of `fetch_article_details`.  The
`RequestException`s of `send_message` are caught inside
`process_new_article` and do not escape. -/
inductive PyExc where
  | typeError
  | requestError
deriving DecidableEq, Repr

/-! ## Message publisher (`telegram_escape`, `send_message`, lines 221–265, 343–344)

Python string operations (`str.replace`, `str.strip`, `str.split`) are
modelled over the character list: `replaceAll` above has exactly
`str.replace`'s left-to-right non-overlapping semantics. -/

/-- `str.strip()`: remove leading and trailing whitespace. -/
def pyStrip (s : String) : String :=
  String.mk
    (((s.toList.dropWhile Char.isWhitespace).reverse.dropWhile
        Char.isWhitespace).reverse)

def telegram_escape (text : String) : String :=
  String.mk (replaceAll ['>'] "&gt;".toList
    (replaceAll ['<'] "&lt;".toList
      (replaceAll ['&'] "&amp;".toList text.toList)))

/-- The caption `msg` built at the top of `send_message` (the em-dash and
newspaper-emoji literals are written here in their intended UTF-8 form). -/
def buildCaption (message : TelegramMessage) : String :=
  let msg := if message.tags ≠ [] then
    (message.tags.foldl (fun acc t => acc ++ "#" ++ t ++ " ") "") ++ "— "
  else ""
  let msg := msg ++ "<strong>" ++ telegram_escape message.title ++ "</strong>"
  let msg := if message.description ≠ "" then
    msg ++ "\n\n<i>" ++ telegram_escape message.description ++ "</i>"
  else msg
  msg ++ "\n\n📰 <a href=\"" ++ message.link ++ "\">Leggi articolo</a>"

/-- `send_message(message, telegram_message_id)`: edit when
`telegram_message_id` is truthy, otherwise send a photo message.  Returns
`none` when the call raises a `RequestException` (transport failure, or
`raise_for_status` on a failed *send*), else `some` of the returned value:
a failed *edit* is only logged and returns the passed `telegram_message_id`
(line 259); a 200 response returns `resp.json()['result']['message_id']`.
The second component is the API call performed. -/
def send_message (message : TelegramMessage) (telegram_message_id : Option Nat)
    (r : TgResult) : Option Nat × List Action :=
  let caption := buildCaption message
  if truthyNat telegram_message_id then
    let mid := telegram_message_id.getD 0
    (match r with
     | .netErr => none
     | .httpError => some mid
     | .ok newId => some newId,
     [Action.editCaption mid caption])
  else
    (match r with
     | .netErr => none
     | .httpError => none
     | .ok newId => some newId,
     [Action.sendPhoto caption message.image])

/-- `send_log(article, entry)` (lines 268–288): the diff-audit message sent
to the logs channel, built from the escaped old/new titles.  Failures are
swallowed inside `send_log`, so it has no outcome, only the attempt. -/
def send_log (article : Article) (entry : FeedEntry) : Action :=
  let d := get_diff (telegram_escape article.title).toList
    (telegram_escape entry.title).toList
  Action.sendLog (d.getD 0 []) (d.getD 1 []) article.link entry.link
    article.telegram_message_id

/-! ## Tag derivation (`process_new_article` lines 104–115) -/

/-- `re.match(r'https://www\.ildolomiti\.it/([a-z-]+)/', entry.link)`,
returning group 1.  The pattern is anchored at the start; `[a-z-]+` is
greedy, and since `'/'` is not in the class, backtracking can never help:
the match succeeds iff the maximal run of `[a-z-]` after the literal
prefix is nonempty and immediately followed by `'/'`, and group 1 is that
run. -/
def tagOf (link : String) : Option String :=
  let pre := "https://www.ildolomiti.it/".toList
  let l := link.toList
  if pre.isPrefixOf l then
    let rest := l.drop pre.length
    let run := rest.takeWhile (fun c => ('a' ≤ c && c ≤ 'z') || c == '-')
    if run.length ≠ 0 ∧ rest.get? run.length = some '/' then some (String.mk run)
    else none
  else none

/-- Python `tag.split('-')` (single-character separator; adjacent
separators yield empty fragments, `''.split('-') == ['']`). -/
def splitDash : List Char → List (List Char)
  | [] => [[]]
  | c :: rest =>
    if c = '-' then [] :: splitDash rest
    else
      match splitDash rest with
      | [] => [[c]]
      | g :: gs => (c :: g) :: gs

/-- Lines 111–115: `tag.split('-')` keeping only fragments longer than one
character when the tag contains a dash, else the tag itself. -/
def tagsOf (tag : String) : List String :=
  if tag.toList.contains '-' then
    ((splitDash tag.toList).map String.mk).filter (fun t => 1 < t.length)
  else [tag]

/-! ## Article store queries -/

/-- `Article.get_or_none(link=...)`: first row in default (insertion)
order whose link matches. -/
def findByLink (rows : List Article) (link : String) : Option Article :=
  rows.find? (fun a => a.link == link)

/-- `Article.get_or_none(post_id=...)` for a present scraped id. -/
def findByPostId (rows : List Article) (pid : Nat) : Option Article :=
  rows.find? (fun a => a.post_id == some pid)

/-- `article.save()` after mutating fields of the row fetched by post id:
replace the first matching row. -/
def updateFirstByPostId (rows : List Article) (pid : Nat)
    (f : Article → Article) : List Article :=
  match rows with
  | [] => []
  | a :: rest =>
    if a.post_id == some pid then f a :: rest
    else a :: updateFirstByPostId rest pid f

/-! ## The reconciler -/

/-- The outcome of processing one feed entry: the rows after the step, the
outbound calls attempted during it (in order), and the exception escaping
it, if any.  Database mutations made before an exception survive it, as
sqlite rows would. -/
structure StepOut where
  rows : List Article
  acts : List Action
  err : Option PyExc
deriving DecidableEq, Repr

/-- The oracle inputs for one entry: the entry itself, the outcome of
`fetch_article_details(entry.link)` (`Except.error` for a transport
failure / non-2xx detail page, which `raise_for_status` turns into a
`RequestException`), and the outcome of the Telegram call. -/
structure EntryCtx where
  entry : FeedEntry
  fetched : Except Unit ArticleDetails
  tg : TgResult
deriving Repr

/-- `process_new_article(entry)` (lines 104–156). -/
def process_new_article (rows : List Article) (entry : FeedEntry)
    (fetched : Except Unit ArticleDetails) (tg : TgResult) : StepOut :=
  match tagOf entry.link with
  | none =>
    -- `tag` is `None`: it is not one of the excluded strings, so the next
    -- test `'-' in tag` raises `TypeError` before anything else happens.
    ⟨rows, [], some .typeError⟩
  | some tag =>
    if tag = "blog" ∨ tag = "necrologi" ∨ tag = "video" then ⟨rows, [], none⟩
    else
      let tags := tagsOf tag
      match fetched with
      | .error _ => ⟨rows, [.fetchDetails entry.link], some .requestError⟩
      | .ok details =>
        let message : TelegramMessage :=
          { title := pyStrip entry.title
            link := entry.link
            tags := tags ++ details.tags
            description := pyOrStr details.description entry.description
            image := pyOrStr details.image "fallback.jpg" }
        -- `if details['post_id'] and (article := Article.get_or_none(post_id=...)):`
        match details.post_id with
        | some pid =>
          match findByPostId rows pid with
          | some article =>
            -- EDITED branch (lines 128–141); the "no telegram_message_id"
            -- case only logs an error and falls through (line 131–132).
            let s := send_message message article.telegram_message_id tg
            match s.1 with
            | none => ⟨rows, .fetchDetails entry.link :: s.2, none⟩
            | some _ =>
              ⟨updateFirstByPostId rows pid
                  (fun a => { a with title := message.title, link := message.link }),
               .fetchDetails entry.link :: s.2 ++ [send_log article entry], none⟩
          | none => newArticle rows entry details message tg
        | none => newArticle rows entry details message tg
where
  /-- The NEW branch (lines 143–156). -/
  newArticle (rows : List Article) (entry : FeedEntry) (details : ArticleDetails)
      (message : TelegramMessage) (tg : TgResult) : StepOut :=
    let s := send_message message none tg
    match s.1 with
    | none => ⟨rows, .fetchDetails entry.link :: s.2, none⟩
    | some mid =>
      ⟨rows ++ [{ post_id := details.post_id
                  title := message.title
                  link := message.link
                  published := entry.published_parsed
                  telegram_message_id := some mid }],
       .fetchDetails entry.link :: s.2, none⟩

/-- One iteration of the steady-state loop (lines 82–85): a link hit is
SEEN (no action), a miss runs `process_new_article`. -/
def stepEntry (rows : List Article) (c : EntryCtx) : StepOut :=
  match findByLink rows c.entry.link with
  | some _ => ⟨rows, [], none⟩
  | none => process_new_article rows c.entry c.fetched c.tg

/-- The steady-state loop over the (already reversed) entries.  An
exception escaping `process_new_article` propagates out of `check`, so the
remaining entries of the cycle are not processed. -/
def runEntries (rows : List Article) : List EntryCtx → StepOut
  | [] => ⟨rows, [], none⟩
  | c :: cs =>
    let s := stepEntry rows c
    match s.err with
    | some e => ⟨s.rows, s.acts, some e⟩
    | none =>
      let t := runEntries s.rows cs
      ⟨t.rows, s.acts ++ t.acts, t.err⟩

/-- `first_run(feed)` (lines 90–101): insert every entry, oldest first,
with no post id and no message id, sending nothing. -/
def first_run (entries : List FeedEntry) : List Article :=
  entries.reverse.map (fun e =>
    { post_id := none
      title := e.title
      link := e.link
      published := e.published_parsed
      telegram_message_id := none })

/-- One poll cycle after a successfully fetched and parsed feed
(lines 78–87): bootstrap when the store is empty, else the steady-state
loop over `reversed(feed.entries)`. -/
def check (rows : List Article) (ctxs : List EntryCtx) : StepOut :=
  if rows.length = 0 then ⟨first_run (ctxs.map (·.entry)), [], none⟩
  else runEntries rows ctxs.reverse

/-! ## Store invariant (claim C9) -/

/-- Every stored record with a scraped post id also has a Telegram message
id. -/
def StoreInv (rows : List Article) : Prop :=
  ∀ a ∈ rows, a.post_id ≠ none → a.telegram_message_id ≠ none

/-! ## Specification-side notions for the diff round trip (claim C3)

The round-trip claim compares the marked output with the original text.
These definitions describe (not compute) the shapes the proof tracks:
which characters of a diff script restore the first string, which block
lists are well-placed, and which group lists are well-formed. -/

/-- The first-string side of a diff script: the characters of the lines
not tagged `'+'`, in order (`difflib.restore(diff, 1)`). -/
def aChars (ls : List DLine) : List Char :=
  ls.filterMap (fun l => if l.tag = '+' then none else some l.ch)

/-- Matching blocks are well-placed in the window
`[aLo, aHi) × [bLo, bHi)`: each block starts at or after the current
position and ends inside the window, and the rest of the list is
well-placed after it. -/
def ChainBounded (aHi bHi : Nat) : Nat → Nat → List (Nat × Nat × Nat) → Prop
  | _, _, [] => True
  | aLo, bLo, (i, j, k) :: rest =>
    aLo ≤ i ∧ bLo ≤ j ∧ i + k ≤ aHi ∧ j + k ≤ bHi ∧
      ChainBounded aHi bHi (i + k) (j + k) rest

/-- The `a`-position after walking a block list, starting from `d`. -/
def endA (d : Nat) : List (Nat × Nat × Nat) → Nat
  | [] => d
  | (i, _, k) :: rest => endA (i + k) rest

/-- The groups produced by `get_diff_removals` are well-formed for a
string of length `n`, all indices at least `lo`: each group is nonempty,
its head is its smallest and its last its largest index, it lies inside
`[lo, n)`, and the next group starts at least two positions further (a gap
of at least one unremoved character separates maximal runs). -/
def GroupsOK (n : Nat) : Int → List (List Int) → Prop
  | _, [] => True
  | lo, g :: gs =>
    g ≠ [] ∧ lo ≤ g.headD 0 ∧ g.headD 0 ≤ g.getLastD 0 ∧
      g.getLastD 0 < (n : Int) ∧ GroupsOK n (g.getLastD 0 + 2) gs

/-- The intended shape of the marked string: the original `s` split at the
group boundaries, with `tagOpen`/`tagClose` wrapped around each removed
run. -/
def stripe (s : List Char) : Nat → List (List Int) → List Char
  | d, [] => s.drop d
  | d, g :: gs =>
    let st := (g.headD 0).toNat
    let en := (g.getLastD 0).toNat
    slice s d st ++ tagOpen ++ slice s st (en + 1) ++ tagClose
      ++ stripe s (en + 1) gs

/-- `stripe` after the opening tags have been stripped. -/
def stripe2 (s : List Char) : Nat → List (List Int) → List Char
  | d, [] => s.drop d
  | d, g :: gs =>
    let en := (g.getLastD 0).toNat
    slice s d (en + 1) ++ tagClose ++ stripe2 s (en + 1) gs

/-- A pattern has no nonempty proper border (no proper prefix that is also
a suffix).  Both markup tags are border-free, which is what makes
occurrence positions in the marked string unambiguous. -/
def BorderFree (p : List Char) : Prop :=
  ∀ m, m < p.length → 0 < m → p.take m ≠ p.drop (p.length - m)

/-- The `j2len` invariant inside `find_longest_match`'s loop: every
recorded run ends at a column inside `[blo, …)` and is no longer than its
distance from the window edges allows. -/
def J2Inv (blo iBound : Nat) (m : List (Nat × Nat)) : Prop :=
  ∀ e ∈ m, blo ≤ e.1 ∧ e.2 ≤ e.1 + 1 - blo ∧ e.2 ≤ iBound

/-- The running best block of `find_longest_match`: still the initial
`(alo, blo, 0)`, or a genuine block inside the window that ends by row
`iBound` on the `a` side. -/
def BestInv (alo blo bhi iBound : Nat) (f : FLM) : Prop :=
  (f.bestsize = 0 → f.besti = alo ∧ f.bestj = blo) ∧
  (f.bestsize ≠ 0 → alo ≤ f.besti ∧ f.besti + f.bestsize ≤ iBound ∧
    blo ≤ f.bestj ∧ f.bestj + f.bestsize ≤ bhi)

/-! # Helper lemmas -/

theorem updateFirstByPostId_length (rows : List Article) (pid : Nat)
    (f : Article → Article) :
    (updateFirstByPostId rows pid f).length = rows.length := by
  induction rows with
  | nil => rfl
  | cons a rest ih =>
    by_cases h : (a.post_id == some pid) = true <;>
      simp [updateFirstByPostId, h, ih]

theorem mem_updateFirstByPostId {b : Article} {rows : List Article} {pid : Nat}
    {f : Article → Article} (h : b ∈ updateFirstByPostId rows pid f) :
    b ∈ rows ∨ ∃ a ∈ rows, b = f a := by
  induction rows with
  | nil => simp [updateFirstByPostId] at h
  | cons a rest ih =>
    by_cases ha : (a.post_id == some pid) = true
    · simp only [updateFirstByPostId, ha, if_pos] at h
      rcases List.mem_cons.mp h with h | h
      · exact Or.inr ⟨a, List.mem_cons_self .., h⟩
      · exact Or.inl (List.mem_cons_of_mem _ h)
    · simp only [updateFirstByPostId, ha, if_neg, Bool.false_eq_true,
        not_false_iff] at h
      rcases List.mem_cons.mp h with h | h
      · exact Or.inl (h ▸ List.mem_cons_self ..)
      · rcases ih h with h | ⟨c, hc, rfl⟩
        · exact Or.inl (List.mem_cons_of_mem _ h)
        · exact Or.inr ⟨c, List.mem_cons_of_mem _ hc, rfl⟩

/-! ## Slice and script lemmas (towards C3) -/

theorem slice_of_le (x : List Char) {lo hi : Nat} (h : hi ≤ lo) :
    slice x lo hi = [] := by
  simp [slice, Nat.sub_eq_zero_of_le h]

theorem slice_append_slice (x : List Char) {lo mid hi : Nat}
    (h1 : lo ≤ mid) (h2 : mid ≤ hi) :
    slice x lo mid ++ slice x mid hi = slice x lo hi := by
  unfold slice
  have hd : x.drop mid = (x.drop lo).drop (mid - lo) := by
    rw [List.drop_drop]
    congr 1
    omega
  rw [hd, ← List.take_add]
  congr 1
  omega

theorem slice_zero_length (x : List Char) : slice x 0 x.length = x := by
  simp [slice]

theorem slice_singleton (x : List Char) {i : Nat} (h : i < x.length) (d : Char) :
    slice x i (i + 1) = [x.getD i d] := by
  unfold slice
  rw [List.drop_eq_getElem_cons h, List.getD_eq_getElem x d h]
  have h1 : i + 1 - i = 1 := by omega
  rw [h1]
  rfl

theorem aChars_append (xs ys : List DLine) :
    aChars (xs ++ ys) = aChars xs ++ aChars ys :=
  List.filterMap_append ..

theorem aChars_dump_of_ne (t : Char) (ht : ¬ t = '+') (x : List Char)
    (lo hi : Nat) : aChars (dump t x lo hi) = slice x lo hi := by
  unfold aChars dump slice
  rw [List.filterMap_map]
  have hc : ((fun l : DLine => if l.tag = '+' then none else some l.ch) ∘
      fun c => (⟨t, c⟩ : DLine)) = some := by
    funext c
    simp [ht]
  rw [hc, List.filterMap_some]

theorem aChars_dump_minus (x : List Char) (lo hi : Nat) :
    aChars (dump '-' x lo hi) = slice x lo hi :=
  aChars_dump_of_ne '-' (by decide) x lo hi

theorem aChars_dump_space (x : List Char) (lo hi : Nat) :
    aChars (dump ' ' x lo hi) = slice x lo hi :=
  aChars_dump_of_ne ' ' (by decide) x lo hi

theorem aChars_dump_plus (x : List Char) (lo hi : Nat) :
    aChars (dump '+' x lo hi) = [] := by
  unfold aChars dump
  rw [List.filterMap_map]
  have hc : ((fun l : DLine => if l.tag = '+' then none else some l.ch) ∘
      fun c => (⟨'+', c⟩ : DLine)) = fun _ => none := by
    funext c
    simp
  rw [hc]
  exact List.filterMap_eq_nil_iff.mpr fun a _ => rfl

theorem aChars_plainReplace (a b : List Char) (alo ahi blo bhi : Nat) :
    aChars (plainReplace a b alo ahi blo bhi) = slice a alo ahi := by
  unfold plainReplace
  split <;>
    simp [aChars_append, aChars_dump_minus, aChars_dump_plus]

theorem findEqPair_mem {a b : List Char} {alo ahi blo bhi i j : Nat}
    (h : findEqPair a b alo ahi blo bhi = some (i, j)) :
    alo ≤ i ∧ i < ahi ∧ blo ≤ j ∧ j < bhi := by
  unfold findEqPair at h
  obtain ⟨j', hj', hfj⟩ := List.exists_of_findSome?_eq_some h
  rcases hmap : (List.range' alo (ahi - alo)).find?
      (fun i => a.get? i == b.get? j') with _ | i'
  · rw [hmap] at hfj
    simp at hfj
  · rw [hmap] at hfj
    simp only [Option.map_some', Option.some.injEq, Prod.mk.injEq] at hfj
    obtain ⟨rfl, rfl⟩ := hfj
    have hi := List.mem_of_find?_eq_some hmap
    rw [List.mem_range'] at hi hj'
    obtain ⟨p, hp, rfl⟩ := hi
    obtain ⟨q, hq, rfl⟩ := hj'
    omega

/-- Restore property of `_fancy_replace`: the non-`'+'` lines of its output
spell exactly `a[alo:ahi]`. -/
theorem aChars_fancyReplace (a b : List Char) :
    ∀ (fuel alo ahi blo bhi : Nat), alo ≤ ahi → ahi ≤ a.length →
      aChars (fancyReplace a b fuel alo ahi blo bhi) = slice a alo ahi := by
  intro fuel
  induction fuel with
  | zero =>
    intro alo ahi blo bhi _ _
    exact aChars_plainReplace ..
  | succ fuel ih =>
    intro alo ahi blo bhi h1 h2
    unfold fancyReplace
    rcases hfe : findEqPair a b alo ahi blo bhi with _ | ⟨i, j⟩
    · exact aChars_plainReplace ..
    · obtain ⟨hi1, hi2, hj1, hj2⟩ := findEqPair_mem hfe
      rw [aChars_append, aChars_append]
      have hpre : aChars
          (if alo < i then
            if blo < j then fancyReplace a b fuel alo i blo j
            else dump '-' a alo i
           else if blo < j then dump '+' b blo j
           else []) = slice a alo i := by
        split
        · split
          · exact ih alo i blo j (by omega) (by omega)
          · exact aChars_dump_minus ..
        · have hieq : i ≤ alo := by omega
          split
          · rw [aChars_dump_plus]
            exact (slice_of_le a hieq).symm
          · simp only [aChars, List.filterMap_nil]
            exact (slice_of_le a hieq).symm
      have hpost : aChars
          (if i + 1 < ahi then
            if j + 1 < bhi then fancyReplace a b fuel (i + 1) ahi (j + 1) bhi
            else dump '-' a (i + 1) ahi
           else if j + 1 < bhi then dump '+' b (j + 1) bhi
           else []) = slice a (i + 1) ahi := by
        split
        · split
          · exact ih (i + 1) ahi (j + 1) bhi (by omega) h2
          · exact aChars_dump_minus ..
        · have hieq : ahi ≤ i + 1 := by omega
          split
          · rw [aChars_dump_plus]
            exact (slice_of_le a hieq).symm
          · simp only [aChars, List.filterMap_nil]
            exact (slice_of_le a hieq).symm
      rw [hpre, hpost]
      have hmid : aChars [⟨' ', a.getD i ' '⟩] = slice a i (i + 1) := by
        rw [slice_singleton a (by omega) ' ']
        rfl
      rw [hmid, slice_append_slice a (by omega) (by omega),
        slice_append_slice a (by omega) (by omega)]

theorem chainBounded_mono_lower {aHi bHi lo bo lo' bo' : Nat}
    {l : List (Nat × Nat × Nat)} (h : ChainBounded aHi bHi lo bo l)
    (h1 : lo' ≤ lo) (h2 : bo' ≤ bo) : ChainBounded aHi bHi lo' bo' l := by
  cases l with
  | nil => trivial
  | cons blk rest =>
    obtain ⟨hi, hj, hk⟩ := blk
    obtain ⟨x1, x2, x3, x4, x5⟩ := h
    exact ⟨by omega, by omega, x3, x4, x5⟩

theorem chainBounded_append {aHi bHi m n : Nat} {ys : List (Nat × Nat × Nat)}
    (hy : ChainBounded aHi bHi m n ys) (hma : m ≤ aHi) (hnb : n ≤ bHi) :
    ∀ (xs : List (Nat × Nat × Nat)) (lo bo : Nat), lo ≤ m → bo ≤ n →
      ChainBounded m n lo bo xs → ChainBounded aHi bHi lo bo (xs ++ ys) := by
  intro xs
  induction xs with
  | nil =>
    intro lo bo h1 h2 _
    exact chainBounded_mono_lower hy h1 h2
  | cons blk rest ih =>
    obtain ⟨i, j, k⟩ := blk
    intro lo bo h1 h2 hx
    obtain ⟨x1, x2, x3, x4, x5⟩ := hx
    exact ⟨x1, x2, by omega, by omega, ih (i + k) (j + k) x3 x4 x5⟩

theorem endA_ge {aHi bHi : Nat} : ∀ (blocks : List (Nat × Nat × Nat)) (d e : Nat),
    ChainBounded aHi bHi d e blocks → d ≤ endA d blocks := by
  intro blocks
  induction blocks with
  | nil => intro d e _; exact le_refl d
  | cons blk rest ih =>
    obtain ⟨i, j, k⟩ := blk
    intro d e h
    obtain ⟨x1, _, _, _, x5⟩ := h
    have := ih (i + k) (j + k) x5
    simp only [endA]
    omega

theorem endA_append (d : Nat) (xs ys : List (Nat × Nat × Nat)) :
    endA d (xs ++ ys) = endA (endA d xs) ys := by
  induction xs generalizing d with
  | nil => rfl
  | cons blk rest ih =>
    obtain ⟨i, j, k⟩ := blk
    simp only [List.cons_append, endA]
    exact ih _

theorem lookupD_cases (m : List (Nat × Nat)) (key : Nat) :
    lookupD m key = 0 ∨ ∃ e ∈ m, e.1 = key ∧ e.2 = lookupD m key := by
  unfold lookupD
  rcases h : m.find? (fun e => e.1 == key) with _ | e
  · simp only [h]
    exact Or.inl trivial
  · simp only [h]
    refine Or.inr ⟨e, List.mem_of_find?_eq_some h, ?_, rfl⟩
    have := List.find?_some h
    simpa using this

theorem flmInner_inv (blo bhi i alo : Nat) (j2len : List (Nat × Nat))
    (hj : J2Inv blo (i - alo) j2len) (hi : alo ≤ i) :
    ∀ (js : List Nat) (acc : List (Nat × Nat)) (best : FLM),
      J2Inv blo (i + 1 - alo) acc →
      BestInv alo blo bhi (i + 1) best →
      J2Inv blo (i + 1 - alo) (flmInner blo bhi i j2len js acc best).1 ∧
      BestInv alo blo bhi (i + 1) (flmInner blo bhi i j2len js acc best).2 := by
  intro js
  induction js with
  | nil =>
    intro acc best ha hb
    exact ⟨ha, hb⟩
  | cons j js ih =>
    intro acc best ha hb
    unfold flmInner
    split
    · exact ih acc best ha hb
    · split
      · exact ⟨ha, hb⟩
      · have hjlo : blo ≤ j := by omega
        have hjhi : j < bhi := by omega
        dsimp only
        set kk := (if j = 0 then 0 else lookupD j2len (j - 1)) + 1 with hkk
        have hkb : kk ≤ j + 1 - blo ∧ kk ≤ i + 1 - alo := by
          rw [hkk]
          split
          · omega
          · rcases lookupD_cases j2len (j - 1) with h0 | ⟨e, he, he1, he2⟩
            · rw [h0]
              omega
            · obtain ⟨hb1, hb2, hb3⟩ := hj e he
              omega
        have hkpos : 1 ≤ kk := by
          rw [hkk]
          omega
        apply ih
        · intro e he
          rcases List.mem_cons.mp he with rfl | he
          · exact ⟨hjlo, hkb.1, hkb.2⟩
          · exact ha e he
        · split
          · unfold BestInv
            dsimp only
            refine ⟨fun h0 => by omega, fun _ => ⟨by omega, by omega, by omega, by omega⟩⟩
          · exact hb

theorem bestInv_mono {alo blo bhi iB iB' : Nat} {f : FLM}
    (h : BestInv alo blo bhi iB f) (hle : iB ≤ iB') :
    BestInv alo blo bhi iB' f := by
  obtain ⟨h1, h2⟩ := h
  refine ⟨h1, fun hne => ?_⟩
  obtain ⟨x1, x2, x3, x4⟩ := h2 hne
  exact ⟨x1, by omega, x3, x4⟩

theorem flmOuter_inv (bm : List (Char × List Nat)) (a : List Char)
    (blo bhi alo : Nat) :
    ∀ (n lo : Nat) (j2len : List (Nat × Nat)) (best : FLM),
      alo ≤ lo →
      J2Inv blo (lo - alo) j2len →
      BestInv alo blo bhi lo best →
      BestInv alo blo bhi (lo + n)
        (flmOuter bm a blo bhi (List.range' lo n) j2len best) := by
  intro n
  induction n with
  | zero =>
    intro lo j2len best _ _ hb
    exact hb
  | succ n ih =>
    intro lo j2len best hlo hj hb
    rw [List.range'_succ]
    unfold flmOuter
    dsimp only
    have hstep := flmInner_inv blo bhi lo alo j2len hj hlo
      (assocGet bm (a.getD lo ' ')) [] best
      (fun e he => absurd he (List.not_mem_nil e))
      (bestInv_mono hb (by omega))
    have := ih (lo + 1) _ _ (by omega) hstep.1 hstep.2
    rw [show lo + (n + 1) = lo + 1 + n by omega]
    exact this

theorem extendFront_inv (a b : List Char) (alo blo bhi iB : Nat) :
    ∀ (fuel besti bestj bestsize : Nat),
      BestInv alo blo bhi iB ⟨besti, bestj, bestsize⟩ →
      BestInv alo blo bhi iB (extendFront a b alo blo fuel besti bestj bestsize) := by
  intro fuel
  induction fuel with
  | zero =>
    intro besti bestj bestsize hb
    exact hb
  | succ fuel ih =>
    intro besti bestj bestsize hb
    unfold extendFront
    split
    next hcond =>
      apply ih
      unfold BestInv at hb ⊢
      dsimp only at hb ⊢
      obtain ⟨h1, h2⟩ := hb
      rcases Nat.eq_zero_or_pos bestsize with rfl | hpos
      · obtain ⟨rfl, rfl⟩ := h1 rfl
        omega
      · obtain ⟨x1, x2, x3, x4⟩ := h2 (by omega)
        exact ⟨fun h0 => by omega,
          fun _ => ⟨by omega, by omega, by omega, by omega⟩⟩
    next => exact hb

theorem extendBack_le (a b : List Char) (ahi bhi : Nat) :
    ∀ (fuel besti bestj bestsize : Nat),
      (bestsize ≠ 0 → besti + bestsize ≤ ahi ∧ bestj + bestsize ≤ bhi) →
      (extendBack a b ahi bhi fuel besti bestj bestsize ≠ 0 →
        besti + extendBack a b ahi bhi fuel besti bestj bestsize ≤ ahi ∧
        bestj + extendBack a b ahi bhi fuel besti bestj bestsize ≤ bhi) := by
  intro fuel
  induction fuel with
  | zero =>
    intro besti bestj bestsize hb
    exact hb
  | succ fuel ih =>
    intro besti bestj bestsize hb
    unfold extendBack
    split
    · exact ih besti bestj (bestsize + 1) (fun _ => by omega)
    · exact hb

theorem findLongestMatch_bounds (a b : List Char) (bm : List (Char × List Nat))
    (alo ahi blo bhi : Nat)
    (hne : (findLongestMatch a b bm alo ahi blo bhi).bestsize ≠ 0) :
    alo ≤ (findLongestMatch a b bm alo ahi blo bhi).besti ∧
    (findLongestMatch a b bm alo ahi blo bhi).besti +
      (findLongestMatch a b bm alo ahi blo bhi).bestsize ≤ ahi ∧
    blo ≤ (findLongestMatch a b bm alo ahi blo bhi).bestj ∧
    (findLongestMatch a b bm alo ahi blo bhi).bestj +
      (findLongestMatch a b bm alo ahi blo bhi).bestsize ≤ bhi := by
  have hout : BestInv alo blo bhi ahi
      (flmOuter bm a blo bhi (List.range' alo (ahi - alo)) [] ⟨alo, blo, 0⟩) := by
    rcases Nat.le_total alo ahi with hle | hle
    · have := flmOuter_inv bm a blo bhi alo (ahi - alo) alo [] ⟨alo, blo, 0⟩
        (le_refl alo) (fun e he => absurd he (List.not_mem_nil e))
        ⟨fun _ => ⟨rfl, rfl⟩, fun h0 => absurd rfl h0⟩
      rwa [show alo + (ahi - alo) = ahi by omega] at this
    · have h0 : ahi - alo = 0 := by omega
      rw [h0]
      exact ⟨fun _ => ⟨rfl, rfl⟩, fun h0 => absurd rfl h0⟩
  unfold findLongestMatch
  dsimp only
  set g := flmOuter bm a blo bhi (List.range' alo (ahi - alo)) [] ⟨alo, blo, 0⟩
    with hg
  have hfr := extendFront_inv a b alo blo bhi ahi g.besti g.besti g.bestj
    g.bestsize hout
  set f := extendFront a b alo blo g.besti g.besti g.bestj g.bestsize with hf
  have hsz : extendBack a b ahi bhi ahi f.besti f.bestj f.bestsize ≠ 0 := hne
  have hstart : alo ≤ f.besti ∧ blo ≤ f.bestj ∧
      (f.bestsize ≠ 0 → f.besti + f.bestsize ≤ ahi ∧ f.bestj + f.bestsize ≤ bhi) := by
    obtain ⟨h1, h2⟩ := hfr
    rcases Nat.eq_zero_or_pos f.bestsize with h0 | hpos
    · obtain ⟨e1, e2⟩ := h1 h0
      exact ⟨le_of_eq e1.symm, le_of_eq e2.symm, fun hne => absurd h0 hne⟩
    · obtain ⟨x1, x2, x3, x4⟩ := h2 (by omega)
      exact ⟨x1, x3, fun _ => ⟨x2, x4⟩⟩
  have hend := extendBack_le a b ahi bhi ahi f.besti f.bestj f.bestsize
    hstart.2.2 hsz
  exact ⟨hstart.1, hend.1, hstart.2.1, hend.2⟩

/-- Restore property of `Differ.compare`'s opcode walk: the non-`'+'` lines
spell exactly the `a`-range the blocks cover. -/
theorem aChars_compareBlocks (a b : List Char) (fuel : Nat) :
    ∀ (blocks : List (Nat × Nat × Nat)) (i j : Nat),
      ChainBounded a.length b.length i j blocks →
      aChars (compareBlocks a b fuel i j blocks) = slice a i (endA i blocks) := by
  intro blocks
  induction blocks with
  | nil =>
    intro i j _
    simp only [compareBlocks, endA, aChars, List.filterMap_nil]
    exact (slice_of_le a (le_refl i)).symm
  | cons blk rest ih =>
    obtain ⟨ai, bj, k⟩ := blk
    intro i j h
    obtain ⟨h1, h2, h3, h4, h5⟩ := h
    unfold compareBlocks
    rw [aChars_append, aChars_append]
    have hpre : aChars
        (if i < ai ∧ j < bj then fancyReplace a b fuel i ai j bj
         else if i < ai then dump '-' a i ai
         else if j < bj then dump '+' b j bj
         else []) = slice a i ai := by
      split
      · exact aChars_fancyReplace a b fuel i ai j bj (by omega) (by omega)
      · split
        · exact aChars_dump_minus ..
        · have hia : ai ≤ i := by omega
          split
          · rw [aChars_dump_plus]
            exact (slice_of_le a hia).symm
          · simp only [aChars, List.filterMap_nil]
            exact (slice_of_le a hia).symm
    rw [hpre, aChars_dump_space, ih (ai + k) (bj + k) h5]
    have hend := @endA_ge a.length b.length rest (ai + k) (bj + k) h5
    simp only [endA]
    rw [List.append_assoc, slice_append_slice a (by omega) hend,
      slice_append_slice a h1 (by omega)]

theorem mbAux_chain (a b : List Char) (bm : List (Char × List Nat)) :
    ∀ (fuel alo ahi blo bhi : Nat),
      ChainBounded ahi bhi alo blo (mbAux a b bm fuel alo ahi blo bhi) := by
  intro fuel
  induction fuel with
  | zero => intro alo ahi blo bhi; trivial
  | succ fuel ih =>
    intro alo ahi blo bhi
    unfold mbAux
    dsimp only
    split
    · trivial
    next hsz =>
      set F := findLongestMatch a b bm alo ahi blo bhi with hF
      obtain ⟨hb1, hb2, hb3, hb4⟩ := findLongestMatch_bounds a b bm alo ahi blo bhi hsz
      rw [← hF] at hb1 hb2 hb3 hb4
      have hright : ChainBounded ahi bhi (F.besti + F.bestsize) (F.bestj + F.bestsize)
          (if F.besti + F.bestsize < ahi ∧ F.bestj + F.bestsize < bhi then
            mbAux a b bm fuel (F.besti + F.bestsize) ahi (F.bestj + F.bestsize) bhi
          else []) := by
        split
        · exact ih ..
        · trivial
      have hleft : ChainBounded F.besti F.bestj alo blo
          (if alo < F.besti ∧ blo < F.bestj then
            mbAux a b bm fuel alo F.besti blo F.bestj
          else []) := by
        split
        · exact ih ..
        · trivial
      have hmid : ChainBounded ahi bhi F.besti F.bestj
          ((F.besti, F.bestj, F.bestsize) ::
            (if F.besti + F.bestsize < ahi ∧ F.bestj + F.bestsize < bhi then
              mbAux a b bm fuel (F.besti + F.bestsize) ahi (F.bestj + F.bestsize) bhi
            else [])) :=
        ⟨le_refl _, le_refl _, hb2, hb4, hright⟩
      rw [List.append_assoc]
      exact chainBounded_append hmid (by omega) (by omega) _ alo blo hb1 hb3 hleft

theorem mergeAdjacent_chain {aHi bHi : Nat} :
    ∀ (rest : List (Nat × Nat × Nat)) (i1 j1 k1 lo bo : Nat),
      ChainBounded aHi bHi (i1 + k1) (j1 + k1) rest →
      lo ≤ i1 → bo ≤ j1 → i1 + k1 ≤ aHi → j1 + k1 ≤ bHi →
      ChainBounded aHi bHi lo bo (mergeAdjacent rest i1 j1 k1) := by
  intro rest
  induction rest with
  | nil =>
    intro i1 j1 k1 lo bo _ h1 h2 h3 h4
    unfold mergeAdjacent
    split
    · exact ⟨h1, h2, h3, h4, trivial⟩
    · trivial
  | cons blk rest ih =>
    obtain ⟨i2, j2, k2⟩ := blk
    intro i1 j1 k1 lo bo hc h1 h2 h3 h4
    obtain ⟨c1, c2, c3, c4, c5⟩ := hc
    unfold mergeAdjacent
    split
    next hadj =>
      apply ih i1 j1 (k1 + k2) lo bo _ h1 h2 (by omega) (by omega)
      have he1 : i1 + (k1 + k2) = i2 + k2 := by omega
      have he2 : j1 + (k1 + k2) = j2 + k2 := by omega
      rw [he1, he2]
      exact c5
    next hadj =>
      have hrec := ih i2 j2 k2 (i1 + k1) (j1 + k1) c5 c1 c2 c3 c4
      split
      · exact ⟨h1, h2, by omega, by omega, hrec⟩
      · exact chainBounded_mono_lower hrec (by omega) (by omega)

theorem matchingBlocks_chain (a b : List Char) :
    ChainBounded a.length b.length 0 0 (matchingBlocks a b) ∧
    endA 0 (matchingBlocks a b) = a.length := by
  constructor
  · unfold matchingBlocks
    dsimp only
    have hmb := mbAux_chain a b (b2jBuild b) (a.length + b.length + 1)
      0 a.length 0 b.length
    have hmerged : ChainBounded a.length b.length 0 0
        (mergeAdjacent (mbAux a b (b2jBuild b) (a.length + b.length + 1)
          0 a.length 0 b.length) 0 0 0) := by
      exact mergeAdjacent_chain _ 0 0 0 0 0 (by simpa using hmb)
        (le_refl 0) (le_refl 0) (by simp) (by simp)
    have hterm : ChainBounded a.length b.length a.length b.length
        [(a.length, b.length, 0)] :=
      ⟨le_refl _, le_refl _, by simp, by simp, trivial⟩
    exact chainBounded_append hterm (le_refl _) (le_refl _) _ 0 0
      (Nat.zero_le _) (Nat.zero_le _) hmerged
  · unfold matchingBlocks
    dsimp only
    rw [endA_append]
    rfl

/-- **Restore property of `ndiff`**: the characters of the lines not
tagged `'+'` spell out the first input exactly. -/
theorem aChars_ndiffLines (a b : List Char) : aChars (ndiffLines a b) = a := by
  unfold ndiffLines
  obtain ⟨hc, he⟩ := matchingBlocks_chain a b
  rw [aChars_compareBlocks a b _ _ 0 0 hc, he, slice_zero_length]

theorem aChars_cons_plus {l : DLine} (h : l.tag = '+') (rest : List DLine) :
    aChars (l :: rest) = aChars rest := by
  simp [aChars, h]

theorem aChars_cons_ne {l : DLine} (h : ¬ l.tag = '+') (rest : List DLine) :
    aChars (l :: rest) = l.ch :: aChars rest := by
  simp [aChars, h]

/-- The indices recorded by `get_diff_removals`'s first loop are exactly
positions into the first string: bounded by the number of non-`'+'` lines
and strictly increasing. -/
theorem removalIndices_spec :
    ∀ (ls : List DLine) (i : Nat) (offset : Int) (n : Nat),
      (i : Int) + offset = (n : Int) →
      (∀ x ∈ removalIndices ls i offset,
        (n : Int) ≤ x ∧ x < (n : Int) + (aChars ls).length) ∧
      (removalIndices ls i offset).Pairwise (· < ·) := by
  intro ls
  induction ls with
  | nil =>
    intro i offset n h
    constructor
    · intro x hx
      simp [removalIndices] at hx
    · simp [removalIndices]
  | cons l rest ih =>
    intro i offset n h
    unfold removalIndices
    split
    next htag =>
      obtain ⟨hb, hp⟩ := ih (i + 1) offset (n + 1) (by push_cast; omega)
      rw [aChars_cons_ne (by simp [htag]) rest]
      refine ⟨fun x hx => ?_, hp⟩
      obtain ⟨h1, h2⟩ := hb x hx
      constructor
      · omega
      · simp only [List.length_cons]
        push_cast at h2 ⊢
        omega
    next htag =>
      split
      next htag2 =>
        obtain ⟨hb, hp⟩ := ih (i + 1) (offset - 1) n (by push_cast; omega)
        rw [aChars_cons_plus htag2 rest]
        exact ⟨hb, hp⟩
      next htag2 =>
        split
        next htag3 =>
          obtain ⟨hb, hp⟩ := ih (i + 1) offset (n + 1) (by push_cast; omega)
          rw [aChars_cons_ne htag2 rest]
          constructor
          · intro x hx
            rcases List.mem_cons.mp hx with rfl | hx
            · constructor
              · omega
              · simp only [List.length_cons]
                push_cast
                omega
            · obtain ⟨h1, h2⟩ := hb x hx
              constructor
              · omega
              · simp only [List.length_cons]
                push_cast at h2 ⊢
                omega
          · refine List.Pairwise.cons (fun x hx => ?_) hp
            have := (hb x hx).1
            omega
        next htag3 =>
          obtain ⟨hb, hp⟩ := ih (i + 1) offset (n + 1) (by push_cast; omega)
          rw [aChars_cons_ne htag2 rest]
          refine ⟨fun x hx => ?_, hp⟩
          obtain ⟨h1, h2⟩ := hb x hx
          constructor
          · omega
          · simp only [List.length_cons]
            push_cast at h2 ⊢
            omega

theorem groupRuns_append :
    ∀ (rest : List Int) (group : List Int) (groups : List (List Int)),
      groupRuns rest group groups = groups ++ groupRuns rest group [] := by
  intro rest
  induction rest with
  | nil =>
    intro group groups
    unfold groupRuns
    split
    · simp
    · simp
  | cons r rest ih =>
    intro group groups
    unfold groupRuns
    match group with
    | [] => exact ih [r] groups
    | c :: g' =>
      dsimp only
      split
      · exact ih _ groups
      · rw [ih [r] (groups ++ [c :: g']), ih [r] ([] ++ [c :: g'])]
        simp

theorem groupsOK_mono {n : Nat} {lo lo' : Int} {gs : List (List Int)}
    (h : GroupsOK n lo gs) (hle : lo' ≤ lo) : GroupsOK n lo' gs := by
  cases gs with
  | nil => trivial
  | cons g gs =>
    obtain ⟨x1, x2, x3, x4, x5⟩ := h
    exact ⟨x1, by omega, x3, x4, x5⟩

theorem groupRuns_ok_aux (n : Nat) :
    ∀ (rest : List Int) (g : List Int) (lo : Int),
      g ≠ [] → lo ≤ g.headD 0 → g.headD 0 ≤ g.getLastD 0 →
      g.getLastD 0 < (n : Int) →
      (∀ x ∈ rest, g.getLastD 0 < x ∧ x < (n : Int)) →
      rest.Pairwise (· < ·) →
      GroupsOK n lo (groupRuns rest g []) := by
  intro rest
  induction rest with
  | nil =>
    intro g lo hne hlo hhl hln _ _
    unfold groupRuns
    rw [if_pos hne]
    exact ⟨hne, hlo, hhl, hln, trivial⟩
  | cons r rest ih =>
    intro g lo hne hlo hhl hln hmem hpw
    obtain ⟨c, g', rfl⟩ : ∃ c g', g = c :: g' := by
      cases g with
      | nil => exact absurd rfl hne
      | cons c g' => exact ⟨c, g', rfl⟩
    unfold groupRuns
    dsimp only
    obtain ⟨hr1, hr2⟩ := hmem r (List.mem_cons_self ..)
    have hpw' := List.pairwise_cons.mp hpw
    split
    next hconsec =>
      apply ih (c :: g' ++ [r]) lo
      · simp
      · rw [show (c :: g' ++ [r]).headD 0 = (c :: g').headD 0 by simp]
        exact hlo
      · rw [show (c :: g' ++ [r]).headD 0 = (c :: g').headD 0 by simp,
          List.getLastD_concat]
        omega
      · rw [List.getLastD_concat]
        exact hr2
      · intro x hx
        rw [List.getLastD_concat]
        exact ⟨hpw'.1 x hx, (hmem x (List.mem_cons_of_mem _ hx)).2⟩
      · exact hpw'.2
    next hconsec =>
      rw [groupRuns_append]
      have hgap : (c :: g').getLastD 0 + 2 ≤ r := by omega
      refine ⟨hne, hlo, hhl, hln, ?_⟩
      have := ih [r] ((c :: g').getLastD 0 + 2) (by simp) (by simpa using hgap)
        (by simp) (by simpa using hr2)
        (fun x hx => ⟨by simpa using hpw'.1 x hx,
          (hmem x (List.mem_cons_of_mem _ hx)).2⟩) hpw'.2
      simpa using this

/-- The groups of `get_diff_removals` are well-formed for the first
string. -/
theorem get_diff_removals_ok (first second : List Char) :
    GroupsOK first.length 0 (get_diff_removals first second) := by
  unfold get_diff_removals
  obtain ⟨hb, hp⟩ := removalIndices_spec (ndiffLines first second) 0 0 0 (by simp)
  rw [aChars_ndiffLines] at hb
  rcases hrem : removalIndices (ndiffLines first second) 0 0 with _ | ⟨r, rest⟩
  · trivial
  · rw [hrem] at hb hp
    show GroupsOK first.length 0 (groupRuns rest [r] [])
    have hr := hb r (List.mem_cons_self ..)
    have hpw' := List.pairwise_cons.mp hp
    apply groupRuns_ok_aux
    · simp
    · simpa using hr.1
    · simp
    · simpa using hr.2
    · intro x hx
      refine ⟨by simpa using hpw'.1 x hx, ?_⟩
      have := (hb x (List.mem_cons_of_mem _ hx)).2
      omega
    · exact hpw'.2

theorem slice_length (s : List Char) {lo hi : Nat} (h : hi ≤ s.length) :
    (slice s lo hi).length = hi - lo := by
  simp only [slice, List.length_take, List.length_drop]
  omega

theorem pyIndex_zero (n : Nat) : pyIndex n 0 = 0 := by
  simp [pyIndex]

theorem pyIndex_length (n : Nat) : pyIndex n (n : Int) = n := by
  simp [pyIndex]

theorem pyIndex_of_nonneg_le {n : Nat} {i : Int} (h0 : 0 ≤ i)
    (hn : i ≤ (n : Int)) : pyIndex n i = i.toNat := by
  unfold pyIndex
  rw [if_neg (by omega)]
  omega

theorem stripe_cons (s : List Char) (d : Nat) (g : List Int)
    (gs : List (List Int)) :
    stripe s d (g :: gs) =
      slice s d (g.headD 0).toNat ++ tagOpen ++
        slice s (g.headD 0).toNat ((g.getLastD 0).toNat + 1) ++ tagClose ++
        stripe s ((g.getLastD 0).toNat + 1) gs := rfl

/-- The marking loop of `get_diff` produces the segment decomposition:
original text split at the group boundaries with the tags wrapped around
each removed run. -/
theorem applyGroups_eq_stripe (s : List Char) :
    ∀ (gs : List (List Int)) (M : List Char) (d : Nat),
      GroupsOK s.length (d : Int) gs → d ≤ s.length →
      applyGroups (M ++ s.drop d) ((M.length : Int) - (d : Int)) gs =
        M ++ stripe s d gs := by
  intro gs
  induction gs with
  | nil =>
    intro M d _ _
    rfl
  | cons g gs ih =>
    intro M d hok hd
    obtain ⟨hne, hlo, hhl, hln, hrest⟩ := hok
    obtain ⟨st, hst⟩ : ∃ st : Nat, g.headD 0 = (st : Int) :=
      ⟨(g.headD 0).toNat, by omega⟩
    obtain ⟨en, hen⟩ : ∃ en : Nat, g.getLastD 0 = (en : Int) :=
      ⟨(g.getLastD 0).toNat, by omega⟩
    rw [hst] at hlo hhl
    rw [hen] at hhl hln hrest
    have hdst : d ≤ st := by omega
    have hsten : st ≤ en := by omega
    have henlt : en < s.length := by omega
    have hcurlen : (M ++ s.drop d).length = M.length + (s.length - d) := by
      simp [List.length_append, List.length_drop]
    have hx1 : pyIndex (M ++ s.drop d).length
        ((st : Int) + ((M.length : Int) - (d : Int))) = M.length + (st - d) := by
      rw [pyIndex_of_nonneg_le (by omega) (by rw [hcurlen]; push_cast; omega)]
      omega
    have hx2 : pyIndex (M ++ s.drop d).length
        ((en : Int) + 1 + ((M.length : Int) - (d : Int))) =
          M.length + (en + 1 - d) := by
      rw [pyIndex_of_nonneg_le (by omega) (by rw [hcurlen]; push_cast; omega)]
      omega
    unfold applyGroups markGroup
    dsimp only
    rw [hst, hen]
    have hslice1 : pySlice (M ++ s.drop d) 0
        ((st : Int) + ((M.length : Int) - (d : Int))) = M ++ slice s d st := by
      unfold pySlice
      dsimp only
      rw [pyIndex_zero, hx1, Nat.sub_zero, List.drop_zero]
      rw [List.take_append]
      rfl
    have hslice2 : pySlice (M ++ s.drop d)
        ((st : Int) + ((M.length : Int) - (d : Int)))
        ((en : Int) + 1 + ((M.length : Int) - (d : Int))) =
          slice s st (en + 1) := by
      unfold pySlice
      dsimp only
      rw [hx1, hx2, List.drop_append, List.drop_drop]
      rw [show d + (st - d) = st by omega,
        show M.length + (en + 1 - d) - (M.length + (st - d)) = en + 1 - st
          by omega]
      rfl
    have hslice3 : pySlice (M ++ s.drop d)
        ((en : Int) + 1 + ((M.length : Int) - (d : Int)))
        ((M ++ s.drop d).length : Int) = s.drop (en + 1) := by
      unfold pySlice
      dsimp only
      rw [hx2, pyIndex_length, List.drop_append, List.drop_drop]
      rw [show d + (en + 1 - d) = en + 1 by omega]
      apply List.take_of_length_le
      rw [hcurlen, List.length_drop]
      omega
    rw [hslice1, hslice2, hslice3]
    have hlen1 : (slice s d st).length = st - d :=
      slice_length s (by omega)
    have hlen2 : (slice s st (en + 1)).length = en + 1 - st :=
      slice_length s (by omega)
    have hstep := ih (M ++ slice s d st ++ tagOpen ++ slice s st (en + 1)
        ++ tagClose) (en + 1)
      (groupsOK_mono hrest (by push_cast; omega)) (by omega)
    rw [show (M.length : Int) - (d : Int) + 14 =
        (((M ++ slice s d st ++ tagOpen ++ slice s st (en + 1)
          ++ tagClose).length : Int) - ((en + 1 : Nat) : Int)) by
      simp only [List.length_append, hlen1, hlen2]
      have hto : tagOpen.length = 6 := rfl
      have htc : tagClose.length = 8 := rfl
      rw [hto, htc]
      push_cast
      omega]
    rw [show M ++ slice s d st ++ tagOpen ++ slice s st (en + 1)
        ++ tagClose ++ s.drop (en + 1) =
        (M ++ slice s d st ++ tagOpen ++ slice s st (en + 1)
          ++ tagClose) ++ s.drop (en + 1) from rfl]
    rw [hstep, stripe_cons, hst, hen]
    simp only [Int.toNat_natCast, List.append_assoc]

/-! ## `replaceAll` lemmas (stripping the markup, towards C3) -/

theorem replaceAllF_fuel (p r : List Char) :
    ∀ (fuel : Nat) (s : List Char), s.length ≤ fuel →
      replaceAllF p r fuel s = replaceAll p r s := by
  intro fuel
  induction fuel using Nat.strong_induction_on with
  | _ fuel ih =>
    intro s hs
    cases s with
    | nil => cases fuel <;> rfl
    | cons c rest =>
      cases fuel with
      | zero => simp at hs
      | succ f =>
        have hs' : rest.length ≤ f := by
          simp only [List.length_cons] at hs
          omega
        show _ = replaceAllF p r (rest.length + 1) (c :: rest)
        unfold replaceAllF
        split
        next hcond =>
          have hp1 : 1 ≤ p.length := by
            cases p with
            | nil => exact absurd rfl hcond.1
            | cons q qs => simp
          have hdl : ((c :: rest).drop p.length).length ≤ rest.length := by
            simp only [List.length_drop, List.length_cons]
            omega
          rw [ih f (by omega) _ (le_trans hdl hs'),
            ih rest.length (by omega) _ hdl]
        next =>
          rw [ih f (by omega) rest hs',
            ih rest.length (by omega) rest (le_refl _)]

theorem replaceAll_cons (p r : List Char) (c : Char) (rest : List Char) :
    replaceAll p r (c :: rest) =
      if p ≠ [] ∧ p.isPrefixOf (c :: rest) then
        r ++ replaceAll p r ((c :: rest).drop p.length)
      else c :: replaceAll p r rest := by
  show replaceAllF p r (rest.length + 1) (c :: rest) = _
  unfold replaceAllF
  split
  next hcond =>
    have hp1 : 1 ≤ p.length := by
      cases p with
      | nil => exact absurd rfl hcond.1
      | cons q qs => simp
    rw [replaceAllF_fuel p r rest.length _
      (by simp only [List.length_drop, List.length_cons]; omega)]
  next =>
    rw [replaceAllF_fuel p r rest.length rest (le_refl _)]

theorem prefix_of_append_of_le {p x y : List Char} (h : p <+: x ++ y)
    (hlen : p.length ≤ x.length) : p <+: x := by
  rw [List.prefix_iff_eq_take] at h ⊢
  rw [List.take_append_eq_append_take, Nat.sub_eq_zero_of_le hlen,
    List.take_zero, List.append_nil] at h
  exact h

theorem prefix_of_append_split {p x y : List Char} (h : p <+: x ++ y)
    (hlen : x.length < p.length) :
    x <+: p ∧ p.drop x.length <+: y := by
  rw [List.prefix_iff_eq_take] at h
  rw [List.take_append_eq_append_take, List.take_of_length_le (by omega)] at h
  constructor
  · exact ⟨y.take (p.length - x.length), h.symm⟩
  · rw [h, List.drop_left]
    exact List.take_prefix ..

theorem prefix_append_iff_of_le {u v w : List Char} (hlen : u.length ≤ v.length) :
    u <+: v ++ w ↔ u <+: v := by
  constructor
  · intro h
    exact prefix_of_append_of_le h hlen
  · intro h
    exact h.trans (List.prefix_append ..)

theorem prefix_eq_take {u v : List Char} (h : u <+: v) :
    u = v.take u.length :=
  List.prefix_iff_eq_take.mp h

theorem infix_iff_exists_drop {p s : List Char} :
    p <:+: s ↔ ∃ n, p <+: s.drop n := by
  constructor
  · rintro ⟨u, v, huv⟩
    refine ⟨u.length, ?_⟩
    rw [← huv, List.append_assoc, List.drop_left]
    exact List.prefix_append ..
  · rintro ⟨n, t, ht⟩
    exact ⟨s.take n, t, by rw [List.append_assoc, ht, List.take_append_drop]⟩

theorem not_infix_of_suffix {p s t : List Char} (h : ¬ p <:+: s)
    (hts : t <:+ s) : ¬ p <:+: t :=
  fun hp => h (hp.trans hts.isInfix)

theorem not_infix_of_isInfix {p s t : List Char} (h : ¬ p <:+: s)
    (hts : t <:+: s) : ¬ p <:+: t :=
  fun hp => h (hp.trans hts)

theorem slice_isInfix (s : List Char) (lo hi : Nat) : slice s lo hi <:+: s :=
  (List.take_prefix ..).isInfix.trans (List.drop_suffix ..).isInfix

/-- No occurrence of `p` in `x ++ y` when there is none in `x`, none in
`y`, and none can span the boundary. -/
theorem not_infix_append {p x y : List Char} (hx : ¬ p <:+: x)
    (hy : ¬ p <:+: y)
    (hb : ∀ m, m < p.length → 0 < m →
      ¬(p.take m <:+ x ∧ p.drop m <+: y)) :
    ¬ p <:+: (x ++ y) := by
  intro h
  obtain ⟨n, hn⟩ := infix_iff_exists_drop.mp h
  rcases Nat.lt_or_ge n x.length with hnx | hnx
  · rw [List.drop_append_eq_append_drop, Nat.sub_eq_zero_of_le (by omega),
      List.drop_zero] at hn
    rcases le_or_lt p.length (x.drop n).length with hpl | hpl
    · exact not_infix_of_suffix hx (List.drop_suffix ..)
        (prefix_of_append_of_le hn hpl).isInfix
    · obtain ⟨hpre, hdrop⟩ := prefix_of_append_split hn hpl
      have hm0 : 0 < (x.drop n).length := by
        simp only [List.length_drop]
        omega
      refine hb (x.drop n).length hpl hm0 ⟨?_, hdrop⟩
      rw [← prefix_eq_take hpre]
      exact List.drop_suffix ..
  · rw [show n = x.length + (n - x.length) by omega, List.drop_append] at hn
    exact hy (infix_iff_exists_drop.mpr ⟨n - x.length, hn⟩)

/-- When `x` contains no occurrence of `p`, the scan passes over `x`
untouched. -/
theorem replaceAll_of_not_infix {p r s : List Char} (hp : ¬ p <:+: s) :
    replaceAll p r s = s := by
  induction s with
  | nil => rfl
  | cons c rest ih =>
    rw [replaceAll_cons]
    rw [if_neg ?hneg]
    case hneg =>
      rintro ⟨-, hpre⟩
      exact hp (List.isPrefixOf_iff_prefix.mp hpre).isInfix
    rw [ih (not_infix_of_suffix hp (List.suffix_cons c rest))]

/-- The border-free scan finds the planted occurrence of `p` right after
`x` and continues behind it. -/
theorem replaceAll_planted {p r x y : List Char} (hbf : BorderFree p)
    (hp0 : p ≠ []) (hx : ¬ p <:+: x) :
    replaceAll p r (x ++ (p ++ y)) = x ++ (r ++ replaceAll p r y) := by
  induction x with
  | nil =>
    simp only [List.nil_append]
    obtain ⟨q, qs, rfl⟩ : ∃ q qs, p = q :: qs := by
      cases p with
      | nil => exact absurd rfl hp0
      | cons q qs => exact ⟨q, qs, rfl⟩
    rw [show (q :: qs) ++ y = q :: (qs ++ y) from rfl, replaceAll_cons]
    rw [if_pos ⟨hp0, List.isPrefixOf_iff_prefix.mpr
      (by rw [show q :: (qs ++ y) = (q :: qs) ++ y from rfl]
          exact List.prefix_append ..)⟩]
    congr 1
    congr 1
    rw [show q :: (qs ++ y) = (q :: qs) ++ y from rfl, List.drop_left]
  | cons c x' ih =>
    rw [show (c :: x') ++ (p ++ y) = c :: (x' ++ (p ++ y)) from rfl,
      replaceAll_cons]
    rw [if_neg ?hneg]
    case hneg =>
      rintro ⟨-, hpre⟩
      have hpre := List.isPrefixOf_iff_prefix.mp hpre
      rw [show c :: (x' ++ (p ++ y)) = (c :: x') ++ (p ++ y) from rfl] at hpre
      rcases le_or_lt p.length (c :: x').length with hpl | hpl
      · exact hx (prefix_of_append_of_le hpre hpl).isInfix
      · obtain ⟨hxp, hdrop⟩ := prefix_of_append_split hpre hpl
        have hdp : p.drop (c :: x').length <+: p :=
          (prefix_append_iff_of_le (by simp only [List.length_drop]; omega)).mp
            hdrop
        have heq := prefix_eq_take hdp
        rw [List.length_drop] at heq
        exact hbf (p.length - (c :: x').length) (by simp at hpl ⊢; omega)
          (by omega)
          (by rw [show p.length - (p.length - (c :: x').length) =
            (c :: x').length by omega, ← heq])
    rw [ih (not_infix_of_suffix hx (List.suffix_cons c x'))]
    rfl

/-- The scan skips a block `x` that contains no occurrence and across whose
right edge none can start. -/
theorem replaceAll_skip {p r x y : List Char} (hx : ¬ p <:+: x)
    (hb : ∀ m, m < p.length → 0 < m →
      ¬(p.take m <:+ x ∧ p.drop m <+: y)) :
    replaceAll p r (x ++ y) = x ++ replaceAll p r y := by
  induction x with
  | nil => simp
  | cons c x' ih =>
    rw [show (c :: x') ++ y = c :: (x' ++ y) from rfl, replaceAll_cons]
    rw [if_neg ?hneg]
    case hneg =>
      rintro ⟨hp0, hpre⟩
      have hpre := List.isPrefixOf_iff_prefix.mp hpre
      rw [show c :: (x' ++ y) = (c :: x') ++ y from rfl] at hpre
      rcases le_or_lt p.length (c :: x').length with hpl | hpl
      · exact hx (prefix_of_append_of_le hpre hpl).isInfix
      · obtain ⟨hxp, hdrop⟩ := prefix_of_append_split hpre hpl
        refine hb (c :: x').length hpl (by simp) ⟨?_, hdrop⟩
        rw [← prefix_eq_take hxp]
    rw [ih (not_infix_of_suffix hx (List.suffix_cons c x'))
      (fun m hm1 hm2 h => hb m hm1 hm2
        ⟨h.1.trans (List.suffix_cons c x'), h.2⟩)]
    rfl

theorem stripe2_cons (s : List Char) (d : Nat) (g : List Int)
    (gs : List (List Int)) :
    stripe2 s d (g :: gs) =
      slice s d ((g.getLastD 0).toNat + 1) ++ tagClose ++
        stripe2 s ((g.getLastD 0).toNat + 1) gs := rfl

theorem slice_append_drop (s : List Char) {d e : Nat} (h1 : d ≤ e) :
    slice s d e ++ s.drop e = s.drop d := by
  unfold slice
  rw [show s.drop e = (s.drop d).drop (e - d) by
    rw [List.drop_drop]
    congr 1
    omega]
  exact List.take_append_drop ..

/-- First stripping pass: removing every `<b><u>` from the marked string
removes exactly the inserted opening tags. -/
theorem strip_pass1 (s : List Char) (hs : ¬ tagOpen <:+: s) :
    ∀ (gs : List (List Int)) (d : Nat),
      GroupsOK s.length (d : Int) gs → d ≤ s.length →
      replaceAll tagOpen [] (stripe s d gs) = stripe2 s d gs := by
  intro gs
  induction gs with
  | nil =>
    intro d _ _
    exact replaceAll_of_not_infix
      (not_infix_of_suffix hs (List.drop_suffix ..))
  | cons g gs ih =>
    intro d hok hd
    obtain ⟨hne, hlo, hhl, hln, hrest⟩ := hok
    obtain ⟨st, hst⟩ : ∃ st : Nat, g.headD 0 = (st : Int) :=
      ⟨(g.headD 0).toNat, by omega⟩
    obtain ⟨en, hen⟩ : ∃ en : Nat, g.getLastD 0 = (en : Int) :=
      ⟨(g.getLastD 0).toNat, by omega⟩
    rw [hst] at hlo hhl
    rw [hen] at hhl hln hrest
    have hdst : d ≤ st := by omega
    have hsten : st ≤ en := by omega
    have henlt : en < s.length := by omega
    rw [stripe_cons, hst, hen]
    simp only [Int.toNat_natCast, List.append_assoc]
    rw [replaceAll_planted (by unfold BorderFree; decide) (by decide)
      (not_infix_of_isInfix hs (slice_isInfix ..)), List.nil_append]
    rw [replaceAll_skip (not_infix_of_isInfix hs (slice_isInfix ..)) ?bnd1]
    case bnd1 =>
      intro m hm1 hm2 h
      have hm6 : m < 6 := by simpa using hm1
      have hlen : (tagOpen.drop m).length ≤ tagClose.length := by
        have h6 : tagOpen.length = 6 := rfl
        have h8 : tagClose.length = 8 := rfl
        simp only [List.length_drop, h6, h8]
        omega
      exact (by decide : ∀ m, m < 6 → 0 < m →
          ¬(tagOpen.drop m <+: tagClose)) m hm6 hm2
        ((prefix_append_iff_of_le hlen).mp h.2)
    rw [replaceAll_skip (by decide) ?bnd2]
    case bnd2 =>
      intro m hm1 hm2 h
      have hm6 : m < 6 := by simpa using hm1
      exact (by decide : ∀ m, m < 6 → 0 < m →
          ¬ List.IsSuffix (tagOpen.take m) tagClose) m hm6 hm2 h.1
    rw [ih (en + 1) (groupsOK_mono hrest (by push_cast; omega)) (by omega)]
    rw [stripe2_cons, hen]
    simp only [Int.toNat_natCast, List.append_assoc]
    rw [← List.append_assoc, slice_append_slice s hdst (by omega)]

/-- Second stripping pass: removing every `</u></b>` recovers the original
text. -/
theorem strip_pass2 (s : List Char) (hs : ¬ tagClose <:+: s) :
    ∀ (gs : List (List Int)) (d : Nat),
      GroupsOK s.length (d : Int) gs → d ≤ s.length →
      replaceAll tagClose [] (stripe2 s d gs) = s.drop d := by
  intro gs
  induction gs with
  | nil =>
    intro d _ _
    exact replaceAll_of_not_infix
      (not_infix_of_suffix hs (List.drop_suffix ..))
  | cons g gs ih =>
    intro d hok hd
    obtain ⟨hne, hlo, hhl, hln, hrest⟩ := hok
    obtain ⟨en, hen⟩ : ∃ en : Nat, g.getLastD 0 = (en : Int) :=
      ⟨(g.getLastD 0).toNat, by omega⟩
    rw [hen] at hhl hln hrest
    have henlt : en < s.length := by omega
    have hd1 : d ≤ en + 1 := by omega
    rw [stripe2_cons, hen]
    simp only [Int.toNat_natCast, List.append_assoc]
    rw [replaceAll_planted (by unfold BorderFree; decide) (by decide)
      (not_infix_of_isInfix hs (slice_isInfix ..)), List.nil_append]
    rw [ih (en + 1) (groupsOK_mono hrest (by push_cast; omega)) (by omega)]
    exact slice_append_drop s hd1

/-- Stripping both tags from the segment decomposition recovers the
original, provided the original contains neither tag. -/
theorem stripTags_stripe (s : List Char) (gs : List (List Int))
    (h1 : ¬ tagOpen <:+: s) (h2 : ¬ tagClose <:+: s)
    (hok : GroupsOK s.length 0 gs) :
    stripTags (stripe s 0 gs) = s := by
  unfold stripTags
  rw [strip_pass1 s h1 gs 0 (by exact_mod_cast hok) (Nat.zero_le _),
    strip_pass2 s h2 gs 0 (by exact_mod_cast hok) (Nat.zero_le _),
    List.drop_zero]

/-! # Claim theorems -/

/-- **C6** (confirmed).  For every feed of `N` entries, if the store is
empty when a cycle starts, then after that cycle the store contains
exactly `N` records, each with a null message identifier and null
`post_id`, and no outbound message (indeed no outbound call at all) was
sent during the cycle. -/
theorem C6_bootstrap_cycle (ctxs : List EntryCtx) :
    (check [] ctxs).rows.length = ctxs.length ∧
    (∀ a ∈ (check [] ctxs).rows,
      a.post_id = none ∧ a.telegram_message_id = none) ∧
    (check [] ctxs).acts = [] ∧ (check [] ctxs).err = none := by
  refine ⟨?_, ?_, rfl, rfl⟩
  · simp [check, first_run]
  · intro a ha
    simp only [check, List.length_nil, if_pos, first_run, List.mem_map] at ha
    obtain ⟨e, _, rfl⟩ := ha
    exact ⟨rfl, rfl⟩

/-- **C6 witness**: the bootstrap theorem applied to a concrete two-entry
feed. -/
theorem C6_bootstrap_cycle_witness :
    (check [] [⟨⟨"A", "la", 1, "da"⟩, .ok ⟨none, none, none, []⟩, .ok 1⟩,
               ⟨⟨"B", "lb", 2, "db"⟩, .ok ⟨none, none, none, []⟩, .ok 2⟩]).rows.length = 2 :=
  (C6_bootstrap_cycle _).1

/-- **C7** (confirmed).  For every feed entry whose link is already
present in the store at lookup time, the cycle performs no action for that
entry: no message is sent or edited, no store record is created, updated
or deleted, and no exception is raised. -/
theorem C7_seen_entry_no_action (rows : List Article) (c : EntryCtx)
    (a : Article) (h : findByLink rows c.entry.link = some a) :
    stepEntry rows c = ⟨rows, [], none⟩ := by
  simp [stepEntry, h]

/-- **C7 witness**: a concrete store hit. -/
theorem C7_seen_entry_no_action_witness :
    findByLink [⟨none, "T", "https://www.ildolomiti.it/cronaca/x", 1, none⟩]
        "https://www.ildolomiti.it/cronaca/x" =
      some ⟨none, "T", "https://www.ildolomiti.it/cronaca/x", 1, none⟩ ∧
    stepEntry [⟨none, "T", "https://www.ildolomiti.it/cronaca/x", 1, none⟩]
        ⟨⟨"T2", "https://www.ildolomiti.it/cronaca/x", 5, "d"⟩,
         .ok ⟨some 3, none, none, []⟩, .ok 9⟩ =
      ⟨[⟨none, "T", "https://www.ildolomiti.it/cronaca/x", 1, none⟩], [], none⟩ :=
  ⟨by decide, C7_seen_entry_no_action _ _
    ⟨none, "T", "https://www.ildolomiti.it/cronaca/x", 1, none⟩ (by decide)⟩

/-- **C10** (confirmed).  For every feed entry whose link does not match
`https://www.ildolomiti.it/<lowercase-letters-and-hyphens>/`, the regex
match is `None`, so `process_new_article` raises `TypeError` at the
`'-' in tag` membership test, before any detail fetch, message send, or
store mutation. -/
theorem C10_bad_link_type_error (rows : List Article) (entry : FeedEntry)
    (fetched : Except Unit ArticleDetails) (tg : TgResult)
    (h : tagOf entry.link = none) :
    process_new_article rows entry fetched tg = ⟨rows, [], some .typeError⟩ := by
  simp [process_new_article, h]

/-- **C10 witness**: a link outside the site pattern. -/
theorem C10_bad_link_type_error_witness :
    tagOf "https://www.ildolomiti.it/Cronaca/x" = none ∧
    process_new_article [] ⟨"T", "https://www.ildolomiti.it/Cronaca/x", 1, "d"⟩
        (.ok ⟨some 3, none, none, []⟩) (.ok 9) = ⟨[], [], some .typeError⟩ :=
  ⟨by decide, C10_bad_link_type_error _ _ _ _ (by decide)⟩

/-- **C5 counterexample**.  The claim says an exception while processing
one entry does not prevent the remaining entries of the cycle from being
processed.  Concretely: a non-empty store, and a cycle whose first
processed entry (entries are processed in reverse feed order, so it is the
*last* one of the feed list) hits a transport error on the detail fetch.
The cycle stops with the exception: the second entry, which on its own
would have inserted a new record (second conjunct), is left unprocessed
and no record for it exists after the cycle. -/
theorem C5_counterexample :
    check [⟨none, "Old", "https://www.ildolomiti.it/cronaca/old", 1, none⟩]
        [⟨⟨"B", "https://www.ildolomiti.it/montagna/b", 3, "db"⟩,
          .ok ⟨none, none, none, []⟩, .ok 7⟩,
         ⟨⟨"A", "https://www.ildolomiti.it/cronaca/a", 2, "da"⟩,
          .error (), .ok 7⟩] =
      ⟨[⟨none, "Old", "https://www.ildolomiti.it/cronaca/old", 1, none⟩],
       [.fetchDetails "https://www.ildolomiti.it/cronaca/a"],
       some .requestError⟩ ∧
    (stepEntry [⟨none, "Old", "https://www.ildolomiti.it/cronaca/old", 1, none⟩]
        ⟨⟨"B", "https://www.ildolomiti.it/montagna/b", 3, "db"⟩,
         .ok ⟨none, none, none, []⟩, .ok 7⟩).rows.length = 2 := by
  constructor <;> rfl

/-- **C5** (corrected).  What the code actually does: an exception
escaping `process_new_article` for one entry propagates out of the cycle
loop, so the remaining entries of the same cycle are not processed at all
(the whole cycle is retried later); only the Telegram send/edit failures
are isolated per entry. -/
theorem C5_exception_aborts_cycle (rows : List Article) (c : EntryCtx)
    (cs : List EntryCtx) (e : PyExc) (h : (stepEntry rows c).err = some e) :
    runEntries rows (c :: cs) =
      ⟨(stepEntry rows c).rows, (stepEntry rows c).acts, some e⟩ := by
  simp [runEntries, h]

/-- **C5 witness**: the abort theorem applied to the counterexample's
failing entry, with another entry pending behind it. -/
theorem C5_exception_aborts_cycle_witness :
    (stepEntry [⟨none, "Old", "https://www.ildolomiti.it/cronaca/old", 1, none⟩]
        ⟨⟨"A", "https://www.ildolomiti.it/cronaca/a", 2, "da"⟩,
         .error (), .ok 7⟩).err = some .requestError ∧
    runEntries [⟨none, "Old", "https://www.ildolomiti.it/cronaca/old", 1, none⟩]
        [⟨⟨"A", "https://www.ildolomiti.it/cronaca/a", 2, "da"⟩, .error (), .ok 7⟩,
         ⟨⟨"B", "https://www.ildolomiti.it/montagna/b", 3, "db"⟩,
          .ok ⟨none, none, none, []⟩, .ok 7⟩] =
      ⟨[⟨none, "Old", "https://www.ildolomiti.it/cronaca/old", 1, none⟩],
       [.fetchDetails "https://www.ildolomiti.it/cronaca/a"],
       some .requestError⟩ := by
  refine ⟨by rfl, ?_⟩
  have := C5_exception_aborts_cycle
    [⟨none, "Old", "https://www.ildolomiti.it/cronaca/old", 1, none⟩]
    ⟨⟨"A", "https://www.ildolomiti.it/cronaca/a", 2, "da"⟩, .error (), .ok 7⟩
    [⟨⟨"B", "https://www.ildolomiti.it/montagna/b", 3, "db"⟩,
      .ok ⟨none, none, none, []⟩, .ok 7⟩]
    .requestError (by rfl)
  exact this.trans (by rfl)

/-- **C8** (confirmed).  For every entry taking the NEW path (valid
non-excluded tag, detail fetch succeeded, no post-id match), the send call
failing (network error, or non-success HTTP response which
`raise_for_status` turns into an exception) means no record is inserted,
so the entry is retried as NEW next cycle; and a record carrying the
returned message identifier is inserted exactly when the send succeeds. -/
theorem C8_new_path_insert_iff_send_ok (rows : List Article)
    (entry : FeedEntry) (details : ArticleDetails) (tg : TgResult)
    (tagv : String)
    (htag : tagOf entry.link = some tagv)
    (hexc : ¬(tagv = "blog" ∨ tagv = "necrologi" ∨ tagv = "video"))
    (hguard : ∀ pid, details.post_id = some pid → findByPostId rows pid = none) :
    (∀ mid, tg = .ok mid →
      (process_new_article rows entry (.ok details) tg).rows =
        rows ++ [⟨details.post_id, pyStrip entry.title, entry.link,
                  entry.published_parsed, some mid⟩] ∧
      (process_new_article rows entry (.ok details) tg).err = none) ∧
    (tg = .netErr ∨ tg = .httpError →
      (process_new_article rows entry (.ok details) tg).rows = rows ∧
      (process_new_article rows entry (.ok details) tg).err = none) := by
  have hnew : process_new_article rows entry (.ok details) tg =
      process_new_article.newArticle rows entry details
        { title := pyStrip entry.title
          link := entry.link
          tags := tagsOf tagv ++ details.tags
          description := pyOrStr details.description entry.description
          image := pyOrStr details.image "fallback.jpg" } tg := by
    rcases hdp : details.post_id with _ | pid
    · simp [process_new_article, htag, hexc, hdp]
    · simp [process_new_article, htag, hexc, hdp, hguard pid hdp]
  constructor
  · rintro mid rfl
    simp [hnew, process_new_article.newArticle, send_message, truthyNat]
  · rintro (rfl | rfl) <;>
      simp [hnew, process_new_article.newArticle, send_message, truthyNat]

/-- **C8 witness**: the NEW path at a concrete entry, for a successful
send. -/
theorem C8_new_path_insert_iff_send_ok_witness :
    (process_new_article [] ⟨" T ", "https://www.ildolomiti.it/cronaca/x", 4, "d"⟩
        (.ok ⟨some 3, none, none, []⟩) (.ok 9)).rows =
      [⟨some 3, "T", "https://www.ildolomiti.it/cronaca/x", 4, some 9⟩] := by
  have h := ((C8_new_path_insert_iff_send_ok []
      ⟨" T ", "https://www.ildolomiti.it/cronaca/x", 4, "d"⟩
      ⟨some 3, none, none, []⟩ (.ok 9) "cronaca" (by decide) (by decide)
      (fun pid h => by simp_all [findByPostId])).1 9 rfl).1
  exact h.trans (by decide)

/-- **C1 counterexample**.  The claim says the matched record's title is
updated "to the entry's value"; the code stores `entry.title.strip()`.
With an entry title carrying surrounding whitespace, the stored title is
the stripped one, not the entry's. -/
theorem C1_counterexample :
    (stepEntry [⟨some 42, "Frana", "https://www.ildolomiti.it/cronaca/vecchio", 1, some 5⟩]
        ⟨⟨" Grande frana ", "https://www.ildolomiti.it/cronaca/nuovo", 2, "d"⟩,
         .ok ⟨some 42, none, none, []⟩, .ok 5⟩).rows =
      [⟨some 42, "Grande frana", "https://www.ildolomiti.it/cronaca/nuovo", 1, some 5⟩] ∧
    "Grande frana" ≠ " Grande frana " := by
  constructor
  · rfl
  · decide

/-- **C1** (corrected).  For a store whose post-id match has a (nonzero)
message identifier, and an entry on the EDITED path whose edit call does
not raise a network error, `process_new_article` issues an edit call with
the existing record's message identifier (never a fresh send), keeps the
store's size (no second record), and updates the matched record's link to
the entry's link and its title to the entry's title *with surrounding
whitespace stripped*. -/
theorem C1_edit_in_place (rows : List Article) (entry : FeedEntry)
    (details : ArticleDetails) (tg : TgResult) (tagv : String)
    (article : Article) (mid : Nat)
    (hlink : findByLink rows entry.link = none)
    (htag : tagOf entry.link = some tagv)
    (hexc : ¬(tagv = "blog" ∨ tagv = "necrologi" ∨ tagv = "video"))
    (hpid : details.post_id = some 42)
    (hfind : findByPostId rows 42 = some article)
    (hmid : article.telegram_message_id = some mid) (hmid0 : mid ≠ 0)
    (hdiff : entry.title ≠ article.title)
    (htg : tg ≠ .netErr) :
    (stepEntry rows ⟨entry, .ok details, tg⟩).err = none ∧
    (∃ cap, Action.editCaption mid cap ∈ (stepEntry rows ⟨entry, .ok details, tg⟩).acts) ∧
    (∀ cap img, Action.sendPhoto cap img ∉ (stepEntry rows ⟨entry, .ok details, tg⟩).acts) ∧
    (stepEntry rows ⟨entry, .ok details, tg⟩).rows.length = rows.length ∧
    (stepEntry rows ⟨entry, .ok details, tg⟩).rows =
      updateFirstByPostId rows 42
        (fun a => { a with title := pyStrip entry.title, link := entry.link }) := by
  have hstep : stepEntry rows ⟨entry, .ok details, tg⟩ =
      process_new_article rows entry (.ok details) tg := by
    simp [stepEntry, hlink]
  have htr : truthyNat (some mid) = true := by
    simp [truthyNat, hmid0]
  cases tg with
  | netErr => exact absurd rfl htg
  | ok newId =>
    rw [hstep]
    simp only [process_new_article, htag, hexc, if_neg, hpid, hfind,
      send_message, hmid, htr, if_pos, Option.getD_some]
    refine ⟨rfl, ⟨_, List.mem_cons_of_mem _ (List.mem_cons_self ..)⟩,
      by simp [send_log], ?_, rfl⟩
    exact updateFirstByPostId_length ..
  | httpError =>
    rw [hstep]
    simp only [process_new_article, htag, hexc, if_neg, hpid, hfind,
      send_message, hmid, htr, if_pos, Option.getD_some]
    refine ⟨rfl, ⟨_, List.mem_cons_of_mem _ (List.mem_cons_self ..)⟩,
      by simp [send_log], ?_, rfl⟩
    exact updateFirstByPostId_length ..

/-- **C1 witness**: the amended edit-in-place theorem at the
counterexample's concrete input. -/
theorem C1_edit_in_place_witness :
    ((stepEntry [⟨some 42, "Frana", "https://www.ildolomiti.it/cronaca/vecchio", 1, some 5⟩]
        ⟨⟨" Grande frana ", "https://www.ildolomiti.it/cronaca/nuovo", 2, "d"⟩,
         .ok ⟨some 42, none, none, []⟩, .ok 5⟩).rows.length = 1) ∧
    (∃ cap, Action.editCaption 5 cap ∈
      (stepEntry [⟨some 42, "Frana", "https://www.ildolomiti.it/cronaca/vecchio", 1, some 5⟩]
        ⟨⟨" Grande frana ", "https://www.ildolomiti.it/cronaca/nuovo", 2, "d"⟩,
         .ok ⟨some 42, none, none, []⟩, .ok 5⟩).acts) := by
  have h := C1_edit_in_place
    [⟨some 42, "Frana", "https://www.ildolomiti.it/cronaca/vecchio", 1, some 5⟩]
    ⟨" Grande frana ", "https://www.ildolomiti.it/cronaca/nuovo", 2, "d"⟩
    ⟨some 42, none, none, []⟩ (.ok 5) "cronaca"
    ⟨some 42, "Frana", "https://www.ildolomiti.it/cronaca/vecchio", 1, some 5⟩ 5
    (by decide) (by decide) (by decide) rfl (by decide) rfl (by decide)
    (by decide) (by decide)
  exact ⟨h.2.2.2.1, h.2.1⟩

/-- **C2 counterexample**.  The claim says an EDITED-path entry whose
publication-edit fails with a *non-success API response* aborts without
store mutation and without a diff-audit log.  In the code, `send_message`
only logs a failed edit and returns the message id (line 256–259), so
processing continues: at this concrete input the stored title and link are
updated and the diff-audit log is sent. -/
theorem C2_counterexample :
    (stepEntry [⟨some 42, "Frana", "https://www.ildolomiti.it/cronaca/vecchio", 1, some 5⟩]
        ⟨⟨"Grande frana", "https://www.ildolomiti.it/cronaca/nuovo", 2, "d"⟩,
         .ok ⟨some 42, none, none, []⟩, .httpError⟩).rows =
      [⟨some 42, "Grande frana", "https://www.ildolomiti.it/cronaca/nuovo", 1, some 5⟩] ∧
    (stepEntry [⟨some 42, "Frana", "https://www.ildolomiti.it/cronaca/vecchio", 1, some 5⟩]
        ⟨⟨"Grande frana", "https://www.ildolomiti.it/cronaca/nuovo", 2, "d"⟩,
         .ok ⟨some 42, none, none, []⟩, .httpError⟩).acts.countP
      (fun a => match a with | .sendLog .. => true | _ => false) = 1 := by
  constructor
  · rfl
  · rfl

/-- **C2** (corrected).  On the EDITED path, only a *network error* of the
edit call (a `RequestException` raised by `requests.post` itself) aborts
the entry's processing: the store keeps the old title and link, no
diff-audit log is attempted, no exception escapes, and the entry's link is
still absent from the store, so it is retried next cycle.  A non-success
API response is swallowed inside `send_message` and does not abort (see
the counterexample). -/
theorem C2_edit_net_error_skips (rows : List Article) (entry : FeedEntry)
    (details : ArticleDetails) (tagv : String) (pid : Nat) (article : Article)
    (hlink : findByLink rows entry.link = none)
    (htag : tagOf entry.link = some tagv)
    (hexc : ¬(tagv = "blog" ∨ tagv = "necrologi" ∨ tagv = "video"))
    (hpid : details.post_id = some pid)
    (hfind : findByPostId rows pid = some article)
    (htr : truthyNat article.telegram_message_id = true) :
    (stepEntry rows ⟨entry, .ok details, .netErr⟩).rows = rows ∧
    (stepEntry rows ⟨entry, .ok details, .netErr⟩).err = none ∧
    (∀ d1 d2 l1 l2 m, Action.sendLog d1 d2 l1 l2 m ∉
      (stepEntry rows ⟨entry, .ok details, .netErr⟩).acts) ∧
    findByLink (stepEntry rows ⟨entry, .ok details, .netErr⟩).rows entry.link = none := by
  have hstep : stepEntry rows ⟨entry, .ok details, .netErr⟩ =
      process_new_article rows entry (.ok details) .netErr := by
    simp [stepEntry, hlink]
  rw [hstep]
  simp only [process_new_article, htag, hexc, if_neg, hpid, hfind,
    send_message, htr, if_pos]
  exact ⟨rfl, rfl, by simp, hlink⟩

/-- **C2 witness**: the network-error edit at the counterexample's store
and entry. -/
theorem C2_edit_net_error_skips_witness :
    (stepEntry [⟨some 42, "Frana", "https://www.ildolomiti.it/cronaca/vecchio", 1, some 5⟩]
        ⟨⟨"Grande frana", "https://www.ildolomiti.it/cronaca/nuovo", 2, "d"⟩,
         .ok ⟨some 42, none, none, []⟩, .netErr⟩).rows =
      [⟨some 42, "Frana", "https://www.ildolomiti.it/cronaca/vecchio", 1, some 5⟩] ∧
    (stepEntry [⟨some 42, "Frana", "https://www.ildolomiti.it/cronaca/vecchio", 1, some 5⟩]
        ⟨⟨"Grande frana", "https://www.ildolomiti.it/cronaca/nuovo", 2, "d"⟩,
         .ok ⟨some 42, none, none, []⟩, .netErr⟩).err = none := by
  have h := C2_edit_net_error_skips
    [⟨some 42, "Frana", "https://www.ildolomiti.it/cronaca/vecchio", 1, some 5⟩]
    ⟨"Grande frana", "https://www.ildolomiti.it/cronaca/nuovo", 2, "d"⟩
    ⟨some 42, none, none, []⟩ "cronaca" 42
    ⟨some 42, "Frana", "https://www.ildolomiti.it/cronaca/vecchio", 1, some 5⟩
    (by decide) (by decide) (by decide) rfl (by decide) (by decide)
  exact ⟨h.1, h.2.1⟩

/-- The EDITED-path store update only changes `title` and `link`, so it
preserves the store invariant. -/
theorem storeInv_updateFirstByPostId {rows : List Article} {pid : Nat}
    {f : Article → Article}
    (hf : ∀ a, (f a).post_id = a.post_id ∧
      (f a).telegram_message_id = a.telegram_message_id)
    (h : StoreInv rows) : StoreInv (updateFirstByPostId rows pid f) := by
  intro b hb hpost
  rcases mem_updateFirstByPostId hb with hb | ⟨a, ha, rfl⟩
  · exact h b hb hpost
  · rw [(hf a).2]
    exact h a ha (by rwa [(hf a).1] at hpost)

/-- `process_new_article` preserves the store invariant, whatever the
oracles say. -/
theorem storeInv_process_new_article (rows : List Article) (entry : FeedEntry)
    (fetched : Except Unit ArticleDetails) (tg : TgResult)
    (h : StoreInv rows) :
    StoreInv (process_new_article rows entry fetched tg).rows := by
  have hnewA : ∀ details message,
      StoreInv (process_new_article.newArticle rows entry details message tg).rows := by
    intro details message
    unfold process_new_article.newArticle
    dsimp only
    split
    · exact h
    · intro b hb hpost
      rcases List.mem_append.mp hb with hb | hb
      · exact h b hb hpost
      · simp only [List.mem_singleton] at hb
        subst hb
        simp
  unfold process_new_article
  dsimp only
  split
  · exact h
  split
  · exact h
  split
  · exact h
  split
  · split
    · split
      · exact h
      · exact storeInv_updateFirstByPostId (fun a => ⟨rfl, rfl⟩) h
    · exact hnewA _ _
  · exact hnewA _ _

/-- One loop iteration preserves the store invariant. -/
theorem storeInv_stepEntry (rows : List Article) (c : EntryCtx)
    (h : StoreInv rows) : StoreInv (stepEntry rows c).rows := by
  unfold stepEntry
  rcases findByLink rows c.entry.link with _ | a
  · exact storeInv_process_new_article _ _ _ _ h
  · simpa using h

/-- The whole steady-state loop preserves the store invariant, also when
it stops at an exception. -/
theorem storeInv_runEntries (cs : List EntryCtx) : ∀ (rows : List Article),
    StoreInv rows → StoreInv (runEntries rows cs).rows := by
  induction cs with
  | nil => intro rows h; simpa [runEntries] using h
  | cons c cs ih =>
    intro rows h
    have h1 := storeInv_stepEntry rows c h
    unfold runEntries
    dsimp only
    rcases hs : (stepEntry rows c).err with _ | e
    · simp only [hs]
      exact ih _ h1
    · simp only [hs]
      exact h1

/-- **C9** (confirmed).  The store invariant — every record with a
non-null `post_id` has a non-null `telegram_message_id` — holds for the
bootstrap inserts (null `post_id`), is preserved by every cycle (the NEW
path only inserts after a successful send returns a message id; the EDITED
path only touches `title`/`link`), and consequently the EDITED branch
never finds a post-id-matched record lacking a message identifier. -/
theorem C9_store_invariant (rows : List Article) (ctxs : List EntryCtx)
    (h : StoreInv rows) :
    StoreInv (check rows ctxs).rows ∧
    (∀ pid article, findByPostId rows pid = some article →
      article.telegram_message_id ≠ none) := by
  constructor
  · unfold check
    by_cases hrows : rows.length = 0
    · simp only [hrows, if_pos]
      intro a ha hpost
      simp only [first_run, List.mem_map] at ha
      obtain ⟨e, _, rfl⟩ := ha
      exact absurd rfl hpost
    · simp only [hrows, if_neg, not_false_iff]
      exact storeInv_runEntries _ _ h
  · intro pid article hfind
    unfold findByPostId at hfind
    have hmem := List.mem_of_find?_eq_some hfind
    have hpid := List.find?_some hfind
    simp only [beq_iff_eq] at hpid
    exact h article hmem (by simp [hpid])

/-- **C9 witness**: a concrete invariant-satisfying store run through a
cycle with one NEW entry, plus the edit-branch consequence at the stored
post id. -/
theorem C9_store_invariant_witness :
    StoreInv (check
      [⟨some 7, "Old", "https://www.ildolomiti.it/cronaca/old", 1, some 3⟩]
      [⟨⟨"B", "https://www.ildolomiti.it/montagna/b", 3, "db"⟩,
        .ok ⟨none, none, none, []⟩, .ok 8⟩]).rows ∧
    (∀ article, findByPostId
        [⟨some 7, "Old", "https://www.ildolomiti.it/cronaca/old", 1, some 3⟩] 7 =
        some article → article.telegram_message_id ≠ none) := by
  have h := C9_store_invariant
    [⟨some 7, "Old", "https://www.ildolomiti.it/cronaca/old", 1, some 3⟩]
    [⟨⟨"B", "https://www.ildolomiti.it/montagna/b", 3, "db"⟩,
      .ok ⟨none, none, none, []⟩, .ok 8⟩]
    (by intro a ha hp; simp_all [StoreInv])
  exact ⟨h.1, fun article => h.2 7 article⟩

/-- **C4 counterexample**.  The claim predicts that for the old title
`"Frana a Cortina"` and the new title `"Grande frana a Cortina"`,
`get_diff` marks exactly `"Grande "` as inserted in the new rendering and
leaves the old rendering completely unmarked.  The code does not: the
character diff aligns `"rana a Cortina"`, so the old `'F'` is a deletion
and the whole run `"Grande f"` (lowercase `f` included) is the insertion. -/
theorem C4_counterexample :
    get_diff "Frana a Cortina".toList "Grande frana a Cortina".toList ≠
      ["Frana a Cortina".toList,
       "<b><u>Grande </u></b>frana a Cortina".toList] := by decide

/-- **C4** (corrected).  The actual output of `get_diff` on the example
pair: the old rendering marks the initial `"F"` as removed, and the new
rendering marks `"Grande f"` as inserted, the common suffix
`"rana a Cortina"` being left unmarked on both sides. -/
theorem C4_frana_example :
    get_diff "Frana a Cortina".toList "Grande frana a Cortina".toList =
      ["<b><u>F</u></b>rana a Cortina".toList,
       "<b><u>Grande f</u></b>rana a Cortina".toList] := by decide

/-- **C3 counterexample**.  For an input that itself contains the markup
substring — old title `"<b><u>"`, new title `""` — the whole old string is
one removed run, the marked output is `"<b><u><b><u></u></b>"`, and
stripping every `"<b><u>"` and `"</u></b>"` erases the original text too,
yielding `""` instead of the original.  So the round trip does not hold
for *every* pair of strings. -/
theorem C3_counterexample :
    stripTags ((get_diff ('<' :: 'b' :: '>' :: '<' :: 'u' :: '>' :: []) []).getD 0 []) ≠
      '<' :: 'b' :: '>' :: '<' :: 'u' :: '>' :: [] := by decide

/-- **C3** (corrected).  For every pair of strings that contain neither
`<b><u>` nor `</u></b>` as a substring, stripping the inserted markup
spans from the first output of `get_diff old new` recovers exactly `old`,
and stripping them from the second output recovers exactly `new`: on such
inputs the marking is purely additive.  (Real titles are sent through
`telegram_escape` first, which leaves no `<` characters at all, so the
hypotheses hold for every actual call site.) -/
theorem C3_strip_roundtrip (old new : List Char)
    (h1 : ¬ tagOpen <:+: old) (h2 : ¬ tagClose <:+: old)
    (h3 : ¬ tagOpen <:+: new) (h4 : ¬ tagClose <:+: new) :
    stripTags ((get_diff old new).getD 0 []) = old ∧
    stripTags ((get_diff old new).getD 1 []) = new := by
  have hmark : ∀ (a b : List Char),
      applyGroups a 0 (get_diff_removals a b) =
        stripe a 0 (get_diff_removals a b) := by
    intro a b
    have h := applyGroups_eq_stripe a (get_diff_removals a b) [] 0
      (by exact_mod_cast get_diff_removals_ok a b) (Nat.zero_le _)
    simpa using h
  constructor
  · show stripTags (applyGroups old 0 (get_diff_removals old new)) = old
    rw [hmark]
    exact stripTags_stripe old _ h1 h2 (get_diff_removals_ok old new)
  · show stripTags (applyGroups new 0 (get_diff_removals new old)) = new
    rw [hmark]
    exact stripTags_stripe new _ h3 h4 (get_diff_removals_ok new old)

/-- **C3 witness**: the round trip at a concrete markup-free pair. -/
theorem C3_strip_roundtrip_witness :
    (¬ tagOpen <:+: "Frana".toList) ∧ (¬ tagClose <:+: "Frana".toList) ∧
    (¬ tagOpen <:+: "Grande frana".toList) ∧
    (¬ tagClose <:+: "Grande frana".toList) ∧
    stripTags ((get_diff "Frana".toList "Grande frana".toList).getD 0 []) =
      "Frana".toList ∧
    stripTags ((get_diff "Frana".toList "Grande frana".toList).getD 1 []) =
      "Grande frana".toList := by
  have h := C3_strip_roundtrip "Frana".toList "Grande frana".toList
    (by decide) (by decide) (by decide) (by decide)
  exact ⟨by decide, by decide, by decide, by decide, h.1, h.2⟩

end IlDolomiti
